import Mathlib

/-!
Verification development for the genelet/horizon repository.

Shallow embedding of the core data structures and algorithms:
  * `Horizon.utils.Tree` — the Scope Tree (utils/tree.go)
  * `Horizon.utils` value conversion — CtyNumberToNative / ConvertCtyToFieldType
    (utils cty.go)
  * `Horizon.dethcl` — decode/encode pipeline fragments (dethcl package)
  * `Horizon.convert` — the format-conversion surface (convert/convert.go)

Each definition is translated from the corresponding Go source function.
Go maps are modelled as association lists in insertion order; Go `nil`
versus empty distinctions are modelled explicitly where they matter.
-/

set_option maxHeartbeats 1000000

namespace Horizon

namespace utils

/-- The Scope Tree of utils/tree.go.  The Go struct carries a mutex, a
`sync.Map` of values and an `Up` back link; for the structural operations
modelled here only the name and the ordered child list (`Downs`) matter. -/
inductive Tree where
  | mk (name : String) (downs : List Tree)

/-- The `Name` field accessor. -/
def Tree.name : Tree → String
  | .mk n _ => n

/-- The `Downs` field accessor. -/
def Tree.downs : Tree → List Tree
  | .mk _ ds => ds

@[simp] theorem Tree.name_mk (n : String) (ds : List Tree) : (Tree.mk n ds).name = n := rfl

@[simp] theorem Tree.downs_mk (n : String) (ds : List Tree) : (Tree.mk n ds).downs = ds := rfl

/-- The `findNodeByName` of tree.go: first child with the given name. -/
def findNodeByName (downs : List Tree) (name : String) : Option Tree :=
  match downs with
  | [] => none
  | d :: rest => if d.name = name then some d else findNodeByName rest name

/-- The `NewTree` of tree.go. -/
def NewTree (name : String) : Tree := .mk name []

/-- The `AddNode` of tree.go, effect on the receiver: if a child with the name
exists the receiver is unchanged, otherwise a fresh node is appended to
`Downs`. -/
def Tree.addNode (t : Tree) (name : String) : Tree :=
  match findNodeByName t.downs name with
  | some _ => t
  | none => .mk t.name (t.downs ++ [NewTree name])

/-- The `AddNode` of tree.go, returned child: the existing same-named child, or
the freshly created node. -/
def Tree.addNodeRet (t : Tree) (name : String) : Tree :=
  match findNodeByName t.downs name with
  | some c => c
  | none => NewTree name

/-- Apply `f` to the first child with name `n`; if no child matches, append
`f (NewTree n)` at the end.  This captures the effect of calling `AddNode n`
on a node and then continuing to operate on the returned child. -/
def updateChild (ds : List Tree) (n : String) (f : Tree → Tree) : List Tree :=
  match ds with
  | [] => [f (NewTree n)]
  | d :: rest => if d.name = n then f d :: rest else d :: updateChild rest n f

/-- Path insertion: the effect of `AddNodes` (tree.go) on the receiver.
`AddNodes tag names` calls `AddNode tag` and then `AddNode` for each of
`names` on the successively returned children. -/
def Tree.insertPath (t : Tree) : List String → Tree
  | [] => t
  | n :: rest => .mk t.name (updateChild t.downs n (fun c => Tree.insertPath c rest))

/-- Remove the first child with the given name (`DeleteNode` of tree.go). -/
def removeFirstNamed (ds : List Tree) (n : String) : List Tree :=
  match ds with
  | [] => []
  | d :: rest => if d.name = n then rest else d :: removeFirstNamed rest n

/-- The `DeleteNode` of tree.go, effect on the receiver. -/
def Tree.deleteNode (t : Tree) (n : String) : Tree :=
  .mk t.name (removeFirstNamed t.downs n)

/-- Apply `f` to the first child named `n`, leaving the list unchanged when
no child matches (used to address an operation to an existing descendant). -/
def mapFirstNamed (ds : List Tree) (n : String) (f : Tree → Tree) : List Tree :=
  match ds with
  | [] => []
  | d :: rest => if d.name = n then f d :: rest else d :: mapFirstNamed rest n f

/-- Apply a node-local operation `f` at the descendant reached by `path`
(child lookup by name at each step); if the path does not resolve the tree
is unchanged.  In Go the caller simply holds a reference to that node. -/
def Tree.applyAt (t : Tree) (path : List String) (f : Tree → Tree) : Tree :=
  match path with
  | [] => f t
  | n :: rest => .mk t.name (mapFirstNamed t.downs n (fun c => Tree.applyAt c rest f))

/-- One structural mutation of the Scope Tree, addressed to the node at
`path` below the root: `AddNode`, `AddNodes`, or `DeleteNode`. -/
inductive TreeOp where
  | addNode (path : List String) (name : String)
  | addNodes (path : List String) (tag : String) (names : List String)
  | deleteNode (path : List String) (name : String)

/-- Run one operation. -/
def Tree.applyOp (t : Tree) : TreeOp → Tree
  | .addNode p n => t.applyAt p (fun c => c.addNode n)
  | .addNodes p tag names => t.applyAt p (fun c => c.insertPath (tag :: names))
  | .deleteNode p n => t.applyAt p (fun c => c.deleteNode n)

/-- Run a sequence of operations. -/
def Tree.run (t : Tree) (ops : List TreeOp) : Tree := ops.foldl Tree.applyOp t

/-- The sibling names of a child list. -/
def namesOf (ds : List Tree) : List String := ds.map Tree.name

@[simp] theorem namesOf_nil : namesOf [] = [] := rfl

@[simp] theorem namesOf_cons (d : Tree) (ds : List Tree) :
    namesOf (d :: ds) = d.name :: namesOf ds := rfl

theorem namesOf_append (ds es : List Tree) :
    namesOf (ds ++ es) = namesOf ds ++ namesOf es := List.map_append _ _ _

/-- Pairwise distinctness of a list of strings, as a boolean. -/
def nodupNames : List String → Bool
  | [] => true
  | x :: rest => (decide (x ∉ rest)) && nodupNames rest

mutual

/-- Well-formedness of a Scope Tree: at every node the child names are
pairwise distinct. -/
def Tree.wf : Tree → Bool
  | .mk _ ds => nodupNames (namesOf ds) && wfList ds

/-- Well-formedness of every tree in a list. -/
def wfList : List Tree → Bool
  | [] => true
  | d :: rest => Tree.wf d && wfList rest

end

theorem wfList_iff (ds : List Tree) :
    wfList ds = true ↔ ∀ d ∈ ds, d.wf = true := by
  induction ds with
  | nil => simp [wfList]
  | cons d rest ih =>
    rw [wfList]
    simp only [Bool.and_eq_true, ih, List.mem_cons]
    constructor
    · rintro ⟨h1, h2⟩ x hx
      rcases hx with rfl | hx
      · exact h1
      · exact h2 x hx
    · intro h
      exact ⟨h d (Or.inl rfl), fun x hx => h x (Or.inr hx)⟩

theorem wf_mk_iff (n : String) (ds : List Tree) :
    (Tree.mk n ds).wf = true ↔
      nodupNames (namesOf ds) = true ∧ ∀ d ∈ ds, d.wf = true := by
  rw [Tree.wf, Bool.and_eq_true, wfList_iff]

theorem findNodeByName_name {ds : List Tree} {n : String} {c : Tree}
    (h : findNodeByName ds n = some c) : c.name = n ∧ c ∈ ds := by
  induction ds with
  | nil => simp [findNodeByName] at h
  | cons d rest ih =>
    rw [findNodeByName] at h
    by_cases hd : d.name = n
    · simp [hd] at h
      subst h
      exact ⟨hd, List.mem_cons_self _ _⟩
    · simp [hd] at h
      obtain ⟨h1, h2⟩ := ih h
      exact ⟨h1, List.mem_cons_of_mem _ h2⟩

theorem findNodeByName_none {ds : List Tree} {n : String}
    (h : findNodeByName ds n = none) : ∀ d ∈ ds, d.name ≠ n := by
  induction ds with
  | nil => simp
  | cons d rest ih =>
    rw [findNodeByName] at h
    by_cases hd : d.name = n
    · simp [hd] at h
    · simp [hd] at h
      intro x hx
      rcases List.mem_cons.mp hx with rfl | hx'
      · exact hd
      · exact ih h x hx'

theorem nodupNames_iff (l : List String) : nodupNames l = true ↔ l.Nodup := by
  induction l with
  | nil => simp [nodupNames]
  | cons x rest ih =>
    rw [nodupNames]
    simp [List.nodup_cons, ih]

theorem wf_addNode {t : Tree} (h : t.wf = true) (n : String) :
    (t.addNode n).wf = true := by
  obtain ⟨tn, ds⟩ := t
  rw [Tree.addNode]
  cases hf : findNodeByName (Tree.mk tn ds).downs n with
  | some c => exact h
  | none =>
    simp only [Tree.downs_mk] at hf ⊢
    rw [wf_mk_iff] at h ⊢
    obtain ⟨h1, h2⟩ := h
    constructor
    · have hnot : ∀ d ∈ ds, d.name ≠ n := findNodeByName_none hf
      rw [nodupNames_iff] at h1 ⊢
      rw [namesOf_append]
      simp only [namesOf_cons, namesOf_nil, NewTree, Tree.name_mk]
      rw [List.nodup_append]
      refine ⟨h1, List.nodup_singleton n, ?_⟩
      intro a ha hb
      simp only [List.mem_singleton] at hb
      subst hb
      obtain ⟨d, hd, rfl⟩ := List.mem_map.mp ha
      exact hnot d hd rfl
    · intro d hd
      rcases List.mem_append.mp hd with hd' | hd'
      · exact h2 d hd'
      · simp only [List.mem_singleton] at hd'
        subst hd'
        rw [NewTree, wf_mk_iff]
        exact ⟨rfl, by simp⟩

theorem namesOf_updateChild (ds : List Tree) (n : String) (f : Tree → Tree)
    (hf : ∀ c, (f c).name = c.name) :
    namesOf (updateChild ds n f) = namesOf ds ∨
      (namesOf (updateChild ds n f) = namesOf ds ++ [n] ∧ ∀ d ∈ ds, d.name ≠ n) := by
  induction ds with
  | nil =>
    right
    constructor
    · simp [updateChild, hf, NewTree]
    · simp
  | cons d rest ih =>
    rw [updateChild]
    by_cases hd : d.name = n
    · left
      simp [hd, hf]
    · rcases ih with h | ⟨h1, h2⟩
      · left
        simp only [hd, if_false, namesOf_cons]
        rw [h]
      · right
        constructor
        · simp only [hd, if_false, namesOf_cons]
          rw [h1]
          rfl
        · intro x hx
          rcases List.mem_cons.mp hx with rfl | hx'
          · exact hd
          · exact h2 x hx'

theorem mem_updateChild {ds : List Tree} {n : String} {f : Tree → Tree} {x : Tree}
    (hx : x ∈ updateChild ds n f) :
    x ∈ ds ∨ (∃ c ∈ ds, x = f c) ∨ x = f (NewTree n) := by
  induction ds with
  | nil =>
    simp [updateChild] at hx
    right; right; exact hx
  | cons d rest ih =>
    rw [updateChild] at hx
    by_cases hd : d.name = n
    · simp only [hd, if_true] at hx
      rcases List.mem_cons.mp hx with rfl | hx'
      · right; left; exact ⟨d, List.mem_cons_self _ _, rfl⟩
      · left; exact List.mem_cons_of_mem _ hx'
    · simp only [hd, if_false] at hx
      rcases List.mem_cons.mp hx with rfl | hx'
      · left; exact List.mem_cons_self _ _
      · rcases ih hx' with h | ⟨c, hc, rfl⟩ | h
        · left; exact List.mem_cons_of_mem _ h
        · right; left; exact ⟨c, List.mem_cons_of_mem _ hc, rfl⟩
        · right; right; exact h

theorem name_insertPath (c : Tree) (path : List String) :
    (c.insertPath path).name = c.name := by
  rcases c with ⟨cn, cds⟩
  cases path with
  | nil => rfl
  | cons m r => rfl

theorem wf_insertPath {t : Tree} (h : t.wf = true) (path : List String) :
    (t.insertPath path).wf = true := by
  induction path generalizing t with
  | nil => exact h
  | cons n rest ih =>
    obtain ⟨tn, ds⟩ := t
    rw [Tree.insertPath]
    rw [wf_mk_iff] at h ⊢
    obtain ⟨h1, h2⟩ := h
    constructor
    · rcases namesOf_updateChild ds n (fun c => Tree.insertPath c rest)
        (fun c => name_insertPath c rest) with hh | ⟨hh, hnew⟩
      · rw [Tree.downs_mk, hh]; exact h1
      · rw [Tree.downs_mk, hh]
        rw [nodupNames_iff] at h1 ⊢
        rw [List.nodup_append]
        refine ⟨h1, List.nodup_singleton n, ?_⟩
        intro a ha hb
        simp only [List.mem_singleton] at hb
        subst hb
        obtain ⟨d, hd, rfl⟩ := List.mem_map.mp ha
        exact hnew d hd rfl
    · intro d hd
      rw [Tree.downs_mk] at hd
      rcases mem_updateChild hd with hmem | ⟨c, hc, rfl⟩ | rfl
      · exact h2 d hmem
      · exact ih (h2 c hc)
      · refine ih ?_
        rw [NewTree, wf_mk_iff]
        exact ⟨rfl, by simp⟩

theorem sublist_removeFirstNamed (ds : List Tree) (n : String) :
    (removeFirstNamed ds n).Sublist ds := by
  induction ds with
  | nil => simp [removeFirstNamed]
  | cons d rest ih =>
    rw [removeFirstNamed]
    by_cases hd : d.name = n
    · simp only [hd, if_true]
      exact List.sublist_cons_self d rest
    · simp only [hd, if_false]
      exact List.Sublist.cons₂ d ih

theorem wf_deleteNode {t : Tree} (h : t.wf = true) (n : String) :
    (t.deleteNode n).wf = true := by
  obtain ⟨tn, ds⟩ := t
  rw [Tree.deleteNode]
  rw [wf_mk_iff] at h ⊢
  obtain ⟨h1, h2⟩ := h
  have hsub := sublist_removeFirstNamed ds n
  constructor
  · rw [nodupNames_iff] at h1 ⊢
    exact List.Nodup.sublist (List.Sublist.map Tree.name hsub) h1
  · intro d hd
    exact h2 d (hsub.subset hd)

theorem mem_mapFirstNamed {ds : List Tree} {n : String} {f : Tree → Tree} {x : Tree}
    (hx : x ∈ mapFirstNamed ds n f) : x ∈ ds ∨ ∃ c ∈ ds, x = f c := by
  induction ds with
  | nil => simp [mapFirstNamed] at hx
  | cons d rest ih =>
    rw [mapFirstNamed] at hx
    by_cases hd : d.name = n
    · simp only [hd, if_true] at hx
      rcases List.mem_cons.mp hx with rfl | hx'
      · right; exact ⟨d, List.mem_cons_self _ _, rfl⟩
      · left; exact List.mem_cons_of_mem _ hx'
    · simp only [hd, if_false] at hx
      rcases List.mem_cons.mp hx with rfl | hx'
      · left; exact List.mem_cons_self _ _
      · rcases ih hx' with h | ⟨c, hc, rfl⟩
        · left; exact List.mem_cons_of_mem _ h
        · right; exact ⟨c, List.mem_cons_of_mem _ hc, rfl⟩

theorem namesOf_mapFirstNamed (ds : List Tree) (n : String) (f : Tree → Tree)
    (hf : ∀ c, (f c).name = c.name) :
    namesOf (mapFirstNamed ds n f) = namesOf ds := by
  induction ds with
  | nil => rfl
  | cons d rest ih =>
    rw [mapFirstNamed]
    by_cases hd : d.name = n
    · simp [hd, hf]
    · simp only [hd, if_false, namesOf_cons]
      rw [ih]

theorem name_applyAt {f : Tree → Tree} (hfn : ∀ c, (f c).name = c.name) :
    ∀ (path : List String) (t : Tree), (t.applyAt path f).name = t.name := by
  intro path t
  cases path with
  | nil => exact hfn t
  | cons n rest =>
    obtain ⟨tn, ds⟩ := t
    rfl

theorem wf_applyAt {f : Tree → Tree}
    (hf : ∀ c, c.wf = true → (f c).wf = true)
    (hfn : ∀ c, (f c).name = c.name) :
    ∀ (path : List String) (t : Tree), t.wf = true →
      (t.applyAt path f).wf = true := by
  intro path
  induction path with
  | nil => exact fun t ht => hf t ht
  | cons n rest ih =>
    intro t ht
    obtain ⟨tn, ds⟩ := t
    rw [Tree.applyAt]
    rw [wf_mk_iff] at ht ⊢
    obtain ⟨h1, h2⟩ := ht
    constructor
    · rw [Tree.downs_mk,
        namesOf_mapFirstNamed ds n _ (fun c => name_applyAt hfn rest c)]
      exact h1
    · intro d hd
      rw [Tree.downs_mk] at hd
      rcases mem_mapFirstNamed hd with hmem | ⟨c, hc, rfl⟩
      · exact h2 d hmem
      · exact ih c (h2 c hc)

theorem name_addNode (c : Tree) (n : String) : (c.addNode n).name = c.name := by
  rw [Tree.addNode]
  cases findNodeByName c.downs n with
  | some _ => rfl
  | none => rfl

theorem wf_applyOp {t : Tree} (h : t.wf = true) (op : TreeOp) :
    (t.applyOp op).wf = true := by
  cases op with
  | addNode p n =>
    exact wf_applyAt (fun c hc => wf_addNode hc n) (fun c => name_addNode c n) p t h
  | addNodes p tag names =>
    exact wf_applyAt (fun c hc => wf_insertPath hc (tag :: names))
      (fun c => name_insertPath c (tag :: names)) p t h
  | deleteNode p n =>
    exact wf_applyAt (fun c hc => wf_deleteNode hc n) (fun c => rfl) p t h

theorem wf_run {t : Tree} (h : t.wf = true) (ops : List TreeOp) :
    (t.run ops).wf = true := by
  induction ops generalizing t with
  | nil => exact h
  | cons op rest ih => exact ih (wf_applyOp h op)

/-! ### Value Conversion Layer (utils cty.go)

`CtyNumberToNative` inspects a `cty.Number` (an arbitrary-precision
`big.Float`; decoded literals are rationals, modelled as `ℚ`) and picks a
native Go numeric kind.  The accuracy values of `math/big` conversions and
the exact conversions of the external `gocty` library are modelled below
from their documented semantics. -/

/-- The `big.Accuracy` of math/big: the rounding direction of a conversion
(`Below` / `Exact` / `Above`). -/
inductive Accuracy where
  | below
  | exact
  | above
deriving DecidableEq

def maxInt64 : ℤ := 9223372036854775807

def minInt64 : ℤ := -9223372036854775808

/-- The `0x7FFFFFFF`, the positive bound tested in `CtyNumberToNative`. -/
def maxInt32 : ℤ := 2147483647

/-- The `-0x80000000`, the negative bound tested in `CtyNumberToNative`. -/
def minInt32 : ℤ := -2147483648

/-- Accuracy of `big.Float.Int64` (math/big): exact for an integer in the
int64 range; for values above/below the range the result clamps and reports
`Below`/`Above`; a non-integral value truncates toward zero, which rounds
down (`Below`) for positive and up (`Above`) for negative values. -/
def bigFloatInt64Acc (q : ℚ) : Accuracy :=
  if q.den = 1 then
    if q.num > maxInt64 then .below
    else if q.num < minInt64 then .above
    else .exact
  else if q > (maxInt64 : ℚ) then .below
  else if q < (minInt64 : ℚ) then .above
  else if 0 ≤ q then .below
  else .above

/-- Accuracy of `big.Float.Int` (math/big, arbitrary precision): exact for
integers, otherwise truncation toward zero. -/
def bigFloatIntAcc (q : ℚ) : Accuracy :=
  if q.den = 1 then .exact
  else if 0 ≤ q then .below
  else .above

/-- The `gocty.FromCtyValue` into an `int64` target (external go-cty library):
an exact, range-checked whole-number conversion; a value that is not a
whole number in the int64 range is a conversion error, never a truncated
or wrapped result. -/
def goctyFromCtyValueInt64 (q : ℚ) : Except String ℤ :=
  if q.den = 1 ∧ minInt64 ≤ q.num ∧ q.num ≤ maxInt64 then .ok q.num
  else .error "a whole number is required, between -9223372036854775808 and 9223372036854775807"

/-- The `gocty.FromCtyValue` into a platform `int` target; the build platform
is 64-bit, so the bounds coincide with int64. -/
def goctyFromCtyValueInt (q : ℚ) : Except String ℤ :=
  goctyFromCtyValueInt64 q

/-- The native numeric result of `CtyNumberToNative`: a platform int, an
int64, a float32, a float64, or a conversion error.  Only the kind of the
float results matters to the narrowing logic, so the float constructors
carry no payload (the Go value is the binary32/binary64 rounding of the
source rational, produced by the external library). -/
inductive GoNumber where
  | goInt (v : ℤ)
  | goInt64 (v : ℤ)
  | goFloat32
  | goFloat64
  | convError (msg : String)
deriving DecidableEq

/-- Whether the result is a plain (platform) integer. -/
def GoNumber.isGoInt : GoNumber → Bool
  | .goInt _ => true
  | _ => false

/-- The `CtyNumberToNative` of utils (cty.go): probe `Int64` accuracy, then
`Int` accuracy, then `Float32` accuracy (each accepted when `Exact` or
`Above`), converting through `gocty.FromCtyValue` and — inside the first
branch — demoting to a plain `int` only when the value lies inside the
**32-bit** window `[-0x80000000, 0x7FFFFFFF]`.  The accuracy of the
binary32 rounding (`big.Float.Float32`) is the external library's and is
passed in as the oracle `f32`; it is consulted only for positive
non-integral values in range. -/
def CtyNumberToNative (f32 : ℚ → Accuracy) (q : ℚ) : GoNumber :=
  if bigFloatInt64Acc q = .exact ∨ bigFloatInt64Acc q = .above then
    match goctyFromCtyValueInt64 q with
    | .ok x => if x > maxInt32 ∨ x < minInt32 then .goInt64 x else .goInt x
    | .error e => .convError e
  else if bigFloatIntAcc q = .exact ∨ bigFloatIntAcc q = .above then
    match goctyFromCtyValueInt q with
    | .ok x => .goInt x
    | .error e => .convError e
  else if f32 q = .exact ∨ f32 q = .above then .goFloat32
  else .goFloat64

/-- Reference behaviour of `CtyNumberToNative` stated by value cases (the
amended form of the narrowing claim): integers inside the 32-bit window
become plain `int`; integers outside it but inside int64 become `int64`;
integers beyond int64 and negative non-integral values produce a
conversion error; positive non-integral values become `float32` exactly
when the binary32 rounding does not round downward, else `float64`. -/
def ctyNumberToNativeAmendedSpec (f32 : ℚ → Accuracy) (q : ℚ) : GoNumber :=
  if q.den = 1 then
    if minInt64 ≤ q.num ∧ q.num ≤ maxInt64 then
      if minInt32 ≤ q.num ∧ q.num ≤ maxInt32 then .goInt q.num
      else .goInt64 q.num
    else .convError "a whole number is required, between -9223372036854775808 and 9223372036854775807"
  else if q < 0 then
    .convError "a whole number is required, between -9223372036854775808 and 9223372036854775807"
  else if f32 q = .exact ∨ f32 q = .above then .goFloat32
  else .goFloat64

theorem num_nonneg_of_nonneg {q : ℚ} (h : 0 ≤ q) : 0 ≤ q.num := Rat.num_nonneg.mpr h

/-- Claim **C4** (amended): `CtyNumberToNative` narrows by value cases: an
integral value within the **32-bit** signed window becomes a plain `int`;
an integral value outside that window but within the int64 range becomes an
`int64`; an integral value beyond int64 and every negative non-integral
value yield a conversion error; a positive non-integral value becomes a
`float32` when the binary32 rounding is exact or upward, else a `float64`.
(The original claim's platform-int threshold is refuted separately by a
counterexample at 2^31.) -/
theorem ctyNumberToNative_eq_amendedSpec (f32 : ℚ → Accuracy) (q : ℚ) :
    CtyNumberToNative f32 q = ctyNumberToNativeAmendedSpec f32 q := by
  have hnotE : ¬ (Accuracy.below = Accuracy.exact ∨ Accuracy.below = Accuracy.above) := by
    decide
  have hA : (Accuracy.above = Accuracy.exact ∨ Accuracy.above = Accuracy.above) := by decide
  have hE : (Accuracy.exact = Accuracy.exact ∨ Accuracy.exact = Accuracy.above) := by decide
  by_cases hden : q.den = 1
  · by_cases hhi : q.num > maxInt64
    · have e1 : bigFloatInt64Acc q = .below := by
        rw [bigFloatInt64Acc]; simp [hden, hhi]
      have e2 : bigFloatIntAcc q = .exact := by
        rw [bigFloatIntAcc]; simp [hden]
      have hrange : ¬ (q.den = 1 ∧ minInt64 ≤ q.num ∧ q.num ≤ maxInt64) := by
        intro h; omega
      have hrange2 : ¬ (minInt64 ≤ q.num ∧ q.num ≤ maxInt64) := by omega
      rw [CtyNumberToNative, e1, e2, if_neg hnotE, if_pos hE, goctyFromCtyValueInt,
        goctyFromCtyValueInt64, if_neg hrange, ctyNumberToNativeAmendedSpec,
        if_pos hden, if_neg hrange2]
    · by_cases hlo : q.num < minInt64
      · have e1 : bigFloatInt64Acc q = .above := by
          rw [bigFloatInt64Acc]; simp [hden, hhi, hlo]
        have hrange : ¬ (q.den = 1 ∧ minInt64 ≤ q.num ∧ q.num ≤ maxInt64) := by
          intro h; omega
        have hrange2 : ¬ (minInt64 ≤ q.num ∧ q.num ≤ maxInt64) := by omega
        rw [CtyNumberToNative, e1, if_pos hA, goctyFromCtyValueInt64, if_neg hrange,
          ctyNumberToNativeAmendedSpec, if_pos hden, if_neg hrange2]
      · have e1 : bigFloatInt64Acc q = .exact := by
          rw [bigFloatInt64Acc]; simp [hden, hhi, hlo]
        have hrange : q.den = 1 ∧ minInt64 ≤ q.num ∧ q.num ≤ maxInt64 :=
          ⟨hden, by omega, by omega⟩
        have hrange2 : minInt64 ≤ q.num ∧ q.num ≤ maxInt64 := ⟨by omega, by omega⟩
        rw [CtyNumberToNative, e1, if_pos hE, goctyFromCtyValueInt64, if_pos hrange,
          ctyNumberToNativeAmendedSpec, if_pos hden, if_pos hrange2]
        by_cases hc : minInt32 ≤ q.num ∧ q.num ≤ maxInt32
        · have hnn : ¬ (q.num > maxInt32 ∨ q.num < minInt32) := by omega
          show (if q.num > maxInt32 ∨ q.num < minInt32 then GoNumber.goInt64 q.num
              else GoNumber.goInt q.num) = _
          rw [if_neg hnn, if_pos hc]
        · have hnn : q.num > maxInt32 ∨ q.num < minInt32 := by omega
          show (if q.num > maxInt32 ∨ q.num < minInt32 then GoNumber.goInt64 q.num
              else GoNumber.goInt q.num) = _
          rw [if_pos hnn, if_neg hc]
  · by_cases hhi : q > (maxInt64 : ℚ)
    · have hpos : (0 : ℚ) ≤ q := le_trans (by norm_num [maxInt64]) (le_of_lt hhi)
      have hqneg : ¬ (q < 0) := not_lt.mpr hpos
      have e1 : bigFloatInt64Acc q = .below := by
        rw [bigFloatInt64Acc]; simp [hden, hhi]
      have e2 : bigFloatIntAcc q = .below := by
        rw [bigFloatIntAcc]; simp [hden, hpos]
      rw [CtyNumberToNative, e1, e2, if_neg hnotE, if_neg hnotE,
        ctyNumberToNativeAmendedSpec, if_neg hden, if_neg hqneg]
    · by_cases hlo : q < (minInt64 : ℚ)
      · have hneg : q < 0 := lt_of_lt_of_le hlo (by norm_num [minInt64])
        have e1 : bigFloatInt64Acc q = .above := by
          rw [bigFloatInt64Acc]; simp [hden, hhi, hlo]
        have hrange : ¬ (q.den = 1 ∧ minInt64 ≤ q.num ∧ q.num ≤ maxInt64) := by
          intro h; exact hden h.1
        rw [CtyNumberToNative, e1, if_pos hA, goctyFromCtyValueInt64, if_neg hrange,
          ctyNumberToNativeAmendedSpec, if_neg hden, if_pos hneg]
      · by_cases hsgn : (0 : ℚ) ≤ q
        · have hqneg : ¬ (q < 0) := not_lt.mpr hsgn
          have e1 : bigFloatInt64Acc q = .below := by
            rw [bigFloatInt64Acc]; simp [hden, hhi, hlo, hsgn]
          have e2 : bigFloatIntAcc q = .below := by
            rw [bigFloatIntAcc]; simp [hden, hsgn]
          rw [CtyNumberToNative, e1, e2, if_neg hnotE, if_neg hnotE,
            ctyNumberToNativeAmendedSpec, if_neg hden, if_neg hqneg]
        · have hneg : q < 0 := not_le.mp hsgn
          have e1 : bigFloatInt64Acc q = .above := by
            rw [bigFloatInt64Acc]; simp [hden, hhi, hlo, hsgn]
          have hrange : ¬ (q.den = 1 ∧ minInt64 ≤ q.num ∧ q.num ≤ maxInt64) := by
            intro h; exact hden h.1
          rw [CtyNumberToNative, e1, if_pos hA, goctyFromCtyValueInt64, if_neg hrange,
            ctyNumberToNativeAmendedSpec, if_neg hden, if_pos hneg]

/-- Claim **C4** counterexample: `2147483648 = 2^31` is integral and well inside
the platform-int (64-bit) range, yet `CtyNumberToNative` returns it as an
`int64`, not as a plain `int` (the demotion threshold in the source is the
32-bit constant `0x7FFFFFFF`).  The float32 oracle is irrelevant on this
input and instantiated with a constant. -/
theorem ctyNumberToNative_int32_threshold_counterexample :
    (2147483648 : ℚ).den = 1 ∧
      minInt64 ≤ (2147483648 : ℚ).num ∧ (2147483648 : ℚ).num ≤ maxInt64 ∧
      CtyNumberToNative (fun _ => .below) 2147483648 = .goInt64 2147483648 ∧
      (CtyNumberToNative (fun _ => .below) 2147483648).isGoInt = false := by
  decide

/-! ### `ConvertCtyToFieldType` for integer targets (utils cty.go, C3)

`ConvertCtyToFieldType` converts an evaluated `cty.Value` to the exact
reflected field type.  For an integer target and a numeric value none of
the string/map/slice coercion steps apply; the function calls the external
`gocty.FromCtyValue` on a fresh zero value of the target type and wraps any
failure in an error naming the target type. -/

/-- The Go integer target kinds handled by the exact conversion. -/
inductive GoIntType where
  | int8
  | int16
  | int32
  | int64
  | goInt
  | uint8
  | uint16
  | uint32
  | uint64
  | goUint
deriving DecidableEq

/-- The `%v` of a reflected Go integer type. -/
def GoIntType.typeName : GoIntType → String
  | .int8 => "int8"
  | .int16 => "int16"
  | .int32 => "int32"
  | .int64 => "int64"
  | .goInt => "int"
  | .uint8 => "uint8"
  | .uint16 => "uint16"
  | .uint32 => "uint32"
  | .uint64 => "uint64"
  | .goUint => "uint"

/-- Smallest value of the target type (64-bit platform). -/
def GoIntType.minVal : GoIntType → ℤ
  | .int8 => -128
  | .int16 => -32768
  | .int32 => -2147483648
  | .int64 => -9223372036854775808
  | .goInt => -9223372036854775808
  | _ => 0

/-- Largest value of the target type (64-bit platform). -/
def GoIntType.maxVal : GoIntType → ℤ
  | .int8 => 127
  | .int16 => 32767
  | .int32 => 2147483647
  | .int64 => 9223372036854775807
  | .goInt => 9223372036854775807
  | .uint8 => 255
  | .uint16 => 65535
  | .uint32 => 4294967295
  | .uint64 => 18446744073709551615
  | .goUint => 18446744073709551615

/-- The `gocty.FromCtyValue` into an integer target (external go-cty library):
the exact, bit-width- and sign-checked whole-number conversion.  A source
value that is not integral or does not fit the target range fails; the
result is never truncated or wrapped. -/
def goctyFromCtyValueIntType (q : ℚ) (t : GoIntType) : Except String ℤ :=
  if q.den = 1 ∧ t.minVal ≤ q.num ∧ q.num ≤ t.maxVal then .ok q.num
  else
    .error ("a whole number is required, between " ++ toString t.minVal ++
      " and " ++ toString t.maxVal)

/-- The `ConvertCtyToFieldType` of utils (cty.go), specialised to a non-null
numeric value and an integer target type: the map/slice/string coercions do
not fire, so the function converts through `gocty.FromCtyValue` and wraps a
failure as `failed to convert cty.Value to <targetType>: <cause>`. -/
def ConvertCtyToFieldTypeInt (q : ℚ) (t : GoIntType) : Except String ℤ :=
  match goctyFromCtyValueIntType q t with
  | .ok v => .ok v
  | .error e => .error ("failed to convert cty.Value to " ++ t.typeName ++ ": " ++ e)

/-- Claim **C3**: for every numeric value and integer target,
`ConvertCtyToFieldType` fails with a conversion error that names the target
type whenever the value is not a whole number inside the target's bit width
and sign, and a successful conversion always returns the source value
exactly (never truncated or wrapped). -/
theorem convertCtyToFieldTypeInt_exact (q : ℚ) (t : GoIntType) :
    (¬ (q.den = 1 ∧ t.minVal ≤ q.num ∧ q.num ≤ t.maxVal) →
        ∃ cause, ConvertCtyToFieldTypeInt q t =
          .error ("failed to convert cty.Value to " ++ t.typeName ++ cause)) ∧
      ∀ v, ConvertCtyToFieldTypeInt q t = .ok v →
        (v : ℚ) = q ∧ t.minVal ≤ v ∧ v ≤ t.maxVal := by
  constructor
  · intro hfit
    refine ⟨": " ++ ("a whole number is required, between " ++ toString t.minVal ++
      " and " ++ toString t.maxVal), ?_⟩
    rw [ConvertCtyToFieldTypeInt, goctyFromCtyValueIntType, if_neg hfit]
    exact congrArg Except.error (String.append_assoc _ _ _)
  · intro v hv
    rw [ConvertCtyToFieldTypeInt] at hv
    by_cases hfit : q.den = 1 ∧ t.minVal ≤ q.num ∧ q.num ≤ t.maxVal
    · rw [goctyFromCtyValueIntType, if_pos hfit] at hv
      cases hv
      refine ⟨?_, hfit.2.1, hfit.2.2⟩
      exact_mod_cast (Rat.den_eq_one_iff q).mp hfit.1
    · rw [goctyFromCtyValueIntType, if_neg hfit] at hv
      cases hv

/-- Witness for **C3** at the value 300 and the `uint8` target (the
spec's own example): 300 exceeds the 8-bit unsigned range, so the
conversion is an error naming `uint8` — never a wrapped 44. -/
theorem convertCtyToFieldTypeInt_exact_witness :
    ¬ ((300 : ℚ).den = 1 ∧ GoIntType.uint8.minVal ≤ (300 : ℚ).num ∧
        (300 : ℚ).num ≤ GoIntType.uint8.maxVal) ∧
      ∃ cause, ConvertCtyToFieldTypeInt 300 .uint8 =
        .error ("failed to convert cty.Value to " ++ GoIntType.uint8.typeName ++ cause) :=
  ⟨by decide, (convertCtyToFieldTypeInt_exact 300 .uint8).1 (by decide)⟩

/-- Claim **C9**: For every Scope Tree node and every sequence of `AddNode`
(get-or-create), `AddNodes`, and `DeleteNode` operations (each addressed to
any node of the tree), the names of every node's children remain pairwise
distinct; moreover `AddNode` called with the name of an existing child
returns that existing child and leaves the tree unchanged (it never creates
a duplicate sibling). -/
theorem scopeTree_unique_names_invariant (t : Tree) (ops : List TreeOp)
    (h : t.wf = true) :
    (t.run ops).wf = true ∧
      ∀ (n : String) (c : Tree), findNodeByName (t.run ops).downs n = some c →
        (t.run ops).addNode n = t.run ops ∧ (t.run ops).addNodeRet n = c := by
  refine ⟨wf_run h ops, ?_⟩
  intro n c hf
  constructor
  · rw [Tree.addNode, hf]
  · rw [Tree.addNodeRet, hf]

/-- Witness for **C9** at a concrete tree and operation sequence. -/
theorem scopeTree_unique_names_invariant_witness :
    (NewTree "var").wf = true ∧
      (((NewTree "var").run
            [.addNode [] "a", .addNodes [] "b" ["c"], .addNode [] "a",
              .addNodes ["b"] "c" ["d"], .deleteNode [] "a"]).wf = true ∧
        ∀ (n : String) (c : Tree),
          findNodeByName ((NewTree "var").run
            [.addNode [] "a", .addNodes [] "b" ["c"], .addNode [] "a",
              .addNodes ["b"] "c" ["d"], .deleteNode [] "a"]).downs n = some c →
          ((NewTree "var").run
            [.addNode [] "a", .addNodes [] "b" ["c"], .addNode [] "a",
              .addNodes ["b"] "c" ["d"], .deleteNode [] "a"]).addNode n =
            (NewTree "var").run
              [.addNode [] "a", .addNodes [] "b" ["c"], .addNode [] "a",
                .addNodes ["b"] "c" ["d"], .deleteNode [] "a"] ∧
            ((NewTree "var").run
              [.addNode [] "a", .addNodes [] "b" ["c"], .addNode [] "a",
                .addNodes ["b"] "c" ["d"], .deleteNode [] "a"]).addNodeRet n = c) :=
  ⟨by decide, scopeTree_unique_names_invariant _ _ (by decide)⟩

end utils

namespace dethcl

/-! ### Generic-map decoding (dethcl/mapslice.go)

The external HCL parser turns document bytes into a syntax tree of
attributes and blocks; expressions of pure-data documents are literals,
tuples and object constructors, plus the `null()` function call that the
decoder special-cases.  `Expr` and `Body` are that parsed form, and
`HVal` is the generic native value (`interface{}`) produced by decoding.
Go maps are modelled as association lists; a Go `nil` slice (what
`decodeSlice` returns for an empty tuple) is `HVal.list []`. -/

/-- A pure-data HCL expression as parsed by the external syntax library:
scalar literals, tuple and object constructors, and the `null()` call. -/
inductive Expr where
  | litStr (s : String)
  | litInt (n : Int)
  | litBool (b : Bool)
  | tuple (xs : List Expr)
  | object (kvs : List (String × Expr))
  | nullCall

/-- A parsed HCL body: attributes and nested blocks, each block carrying a
type name, a label list and its own body. -/
inductive Body where
  | mk (attrs : List (String × Expr)) (blocks : List (String × List String × Body))

def Body.attrs : Body → List (String × Expr)
  | .mk a _ => a

def Body.blocks : Body → List (String × List String × Body)
  | .mk _ b => b

/-- A generic native value (`interface{}`) produced by the decoder. -/
inductive HVal where
  | str (s : String)
  | int (n : Int)
  | int64 (n : Int)
  | bool (b : Bool)
  | list (xs : List HVal)
  | map (kvs : List (String × HVal))
  | null

/-- Numeric narrowing applied by `CtyToNative`/`CtyNumberToNative` to an
integral literal (assumed inside the int64 range, which the number parser
guarantees): plain `int` inside the 32-bit window, else `int64`. -/
def intToNative (n : Int) : HVal :=
  if n > utils.maxInt32 ∨ n < utils.minInt32 then .int64 n else .int n

mutual

/-- The `expressionToNative` of mapslice.go for a pure-data expression with a
nil `ref`: a tuple decodes through `decodeSlice`, an object through
`decodeMap`/`decodeObjectConsExpr`, the `null()` call yields Go `nil`, and
a literal converts through `CtyToNative`.  (The Scope Tree bookkeeping of
the source affects only later variable resolution, not the value
returned, and is omitted.) -/
def expressionToNative : Expr → HVal
  | .litStr s => .str s
  | .litInt n => intToNative n
  | .litBool b => .bool b
  | .nullCall => .null
  | .tuple xs => .list (exprsToNative xs)
  | .object kvs => .map (exprPairsToNative kvs)

/-- The `decodeSlice`/`decodeTuple` element loop. -/
def exprsToNative : List Expr → List HVal
  | [] => []
  | e :: rest => expressionToNative e :: exprsToNative rest

/-- The `decodeObjectConsExpr` item loop. -/
def exprPairsToNative : List (String × Expr) → List (String × HVal)
  | [] => []
  | (k, e) :: rest => (k, expressionToNative e) :: exprPairsToNative rest

end

/-- Go map assignment `m[k] = v` on an association-list model: overwrite in
place, or append a new key. -/
def assocSet {α : Type} : List (String × α) → String → α → List (String × α)
  | [], k, v => [(k, v)]
  | (k', v') :: rest, k, v =>
    if k' = k then (k, v) :: rest else (k', v') :: assocSet rest k v

/-- Go map lookup `m[k]`. -/
def assocLookup {α : Type} : List (String × α) → String → Option α
  | [], _ => none
  | (k', v') :: rest, k => if k' = k then some v' else assocLookup rest k

/-- The attribute pass of `decodeBody` (mapslice.go): every attribute's
expression value is stored under its key — a `nil` value (from `null()`)
included. -/
def decodeAttrs (attrs : List (String × Expr)) : List (String × HVal) :=
  attrs.foldl (fun m kv => assocSet m kv.1 (expressionToNative kv.2)) []

/-- First block with more than two labels, if any (`decodeBody` rejects
it). -/
def findBadBlock (blocks : List (String × List String × Body)) :
    Option String :=
  match blocks with
  | [] => none
  | (t, ls, _) :: rest => if ls.length > 2 then some t else findBadBlock rest

/-- The list of distinct keys of an association-list-to-be, in first
occurrence order. -/
def dedupFirst (ks : List String) : List String :=
  match ks with
  | [] => []
  | k :: rest =>
    let tail := dedupFirst rest
    if k ∈ tail then k :: tail.erase k else k :: tail

/-- One step of the 0-label grouping loop of `decodeBody`
(`sliceBodies` with `counts`). -/
def groupSliceStep (acc : List (String × List Body))
    (b : String × List String × Body) : List (String × List Body) :=
  match b with
  | (t, [], body) =>
    match assocLookup acc t with
    | some bs => assocSet acc t (bs ++ [body])
    | none => acc ++ [(t, [body])]
  | (_, _ :: _, _) => acc

/-- The 0-label blocks of a body, grouped by type in first-occurrence
order. -/
def groupSlice (blocks : List (String × List String × Body)) :
    List (String × List Body) :=
  blocks.foldl groupSliceStep []

/-- One step of the 1-label grouping loop of `decodeBody` (`mapBodies`): a
later block with the same label overwrites an earlier one. -/
def groupMap1Step (acc : List (String × List (String × Body)))
    (b : String × List String × Body) : List (String × List (String × Body)) :=
  match b with
  | (_, [], _) => acc
  | (t, [l], body) =>
    match assocLookup acc t with
    | some m => assocSet acc t (assocSet m l body)
    | none => acc ++ [(t, [(l, body)])]
  | (_, _ :: _ :: _, _) => acc

/-- The 1-label blocks grouped by type, each group an association from the
label to the block body. -/
def groupMap1 (blocks : List (String × List String × Body)) :
    List (String × List (String × Body)) :=
  blocks.foldl groupMap1Step []

/-- One step of the 2-label grouping loop of `decodeBody` (`map2Bodies`). -/
def groupMap2Step (acc : List (String × List (String × List (String × Body))))
    (b : String × List String × Body) :
    List (String × List (String × List (String × Body))) :=
  match b with
  | (_, [], _) => acc
  | (_, [_], _) => acc
  | (t, [l0, l1], body) =>
    let m := (assocLookup acc t).getD []
    let inner := (assocLookup m l0).getD []
    assocSet acc t (assocSet m l0 (assocSet inner l1 body))
  | (_, _ :: _ :: _ :: _, _) => acc

/-- The 2-label blocks grouped by type and first label. -/
def groupMap2 (blocks : List (String × List String × Body)) :
    List (String × List (String × List (String × Body))) :=
  blocks.foldl groupMap2Step []

/-- The `mapM` over `Except` for association values. -/
def mapExceptPairs {α β : Type} (f : α → Except String β) :
    List (String × α) → Except String (List (String × β))
  | [] => .ok []
  | (k, a) :: rest => do
    let b ← f a
    let bs ← mapExceptPairs f rest
    .ok ((k, b) :: bs)

def mapExcept {α β : Type} (f : α → Except String β) :
    List α → Except String (List β)
  | [] => .ok []
  | a :: rest => do
    let b ← f a
    let bs ← mapExcept f rest
    .ok (b :: bs)

/-- Recursive decoding of the grouped 0, 1 and 2 label blocks of a body
(the three block loops of `decodeBody` in mapslice.go), parameterised by
the recursive body decoder `dec`: a group of several same-typed 0-label
blocks becomes a list of maps, a single one becomes that block's map
alone, and the labelled groups become maps keyed by their labels. -/
def decodeBlockUpdates
    (dec : Body → Except String (List (String × HVal)))
    (blocks : List (String × List String × Body)) :
    Except String (List (String × HVal) × List (String × HVal) ×
      List (String × HVal)) := do
  let su ← mapExceptPairs
    (fun bodies => do
      let vs ← mapExcept dec bodies
      match vs with
      | [v] => .ok (HVal.map v)
      | _ => .ok (HVal.list (vs.map HVal.map)))
    (groupSlice blocks)
  let mu ← mapExceptPairs
    (fun m => do
      let vm ← mapExceptPairs dec m
      .ok (HVal.map (vm.map (fun kv => (kv.1, HVal.map kv.2)))))
    (groupMap1 blocks)
  let m2u ← mapExceptPairs
    (fun m => do
      let vm ← mapExceptPairs
        (fun inner => do
          let vi ← mapExceptPairs dec inner
          .ok (HVal.map (vi.map (fun kv => (kv.1, HVal.map kv.2)))))
        m
      .ok (HVal.map vm))
    (groupMap2 blocks)
  .ok (su, mu, m2u)

/-- The `decodeBody` of mapslice.go for a generic-map target: decode every
attribute into the object (null values included), reject any block with
more than two labels, then recursively decode the block groups and assign
them over the object.  `fuel` bounds the recursion depth, which in Go is
bounded only by the call stack; every result below either holds for all
fuel values or is evaluated with fuel exceeding the document's depth. -/
def decodeBody : Nat → Body → Except String (List (String × HVal))
  | 0, _ => .error "recursion depth exhausted"
  | fuel + 1, b =>
    let obj0 := decodeAttrs b.attrs
    match findBadBlock b.blocks with
    | some t =>
      .error ("unsupported number of labels for block type " ++ t ++
        ": expected 0, 1, or 2")
    | none =>
      match decodeBlockUpdates (fun body => decodeBody fuel body) b.blocks with
      | .error e => .error e
      | .ok (su, mu, m2u) =>
        let obj1 := su.foldl (fun m kv => assocSet m kv.1 kv.2) obj0
        let obj2 := mu.foldl (fun m kv => assocSet m kv.1 kv.2) obj1
        let obj3 := m2u.foldl (fun m kv => assocSet m kv.1 kv.2) obj2
        .ok obj3

/-- Success test for an `Except` result (the Go error being nil). -/
def isOkE {α : Type} : Except String α → Bool
  | .ok _ => true
  | .error _ => false

/-- Whether an attribute expression evaluates to the null sentinel: in a
pure-data document exactly the `null()` function call does
(`ExpressionToCty` maps it to `cty.NilVal`; literals, tuples and objects
are never null). -/
def exprEvaluatesNull : Expr → Bool
  | .nullCall => true
  | _ => false

/-- Whether the struct decode populates the simple field carrying document
tag `tag`: `evaluateExpressions` records the attributes whose value is
null; `categorizeStructFields` skips any field whose tag was recorded;
`categorizeHCLBody` withholds those attributes from the simple-field body;
and `processSimpleFields` copies only fields whose attribute exists there. -/
def simpleFieldPopulated (attrs : List (String × Expr)) (tag : String) : Bool :=
  let nullAttrs := attrs.filterMap
    (fun kv => if exprEvaluatesNull kv.2 then some kv.1 else none)
  if tag ∈ nullAttrs then false
  else (assocLookup attrs tag).isSome

/-- Keys of an association list. -/
def keysOf {α : Type} (m : List (String × α)) : List String := m.map Prod.fst

theorem assocLookup_set_same {α : Type} (m : List (String × α)) (k : String)
    (v : α) : assocLookup (assocSet m k v) k = some v := by
  induction m with
  | nil => simp [assocSet, assocLookup]
  | cons kv rest ih =>
    obtain ⟨k', v'⟩ := kv
    rw [assocSet]
    by_cases h : k' = k
    · simp [h, assocLookup]
    · simp only [h, if_false]
      rw [assocLookup, if_neg h]
      exact ih

theorem assocLookup_set_other {α : Type} (m : List (String × α)) {k k' : String}
    (v : α) (hne : k' ≠ k) : assocLookup (assocSet m k' v) k = assocLookup m k := by
  induction m with
  | nil => simp [assocSet, assocLookup, hne]
  | cons kv rest ih =>
    obtain ⟨k0, v0⟩ := kv
    rw [assocSet]
    by_cases h : k0 = k'
    · subst h
      simp only [if_pos rfl, assocLookup, if_neg hne]
    · simp only [h, if_false]
      simp only [assocLookup]
      by_cases h2 : k0 = k
      · simp [h2]
      · simp only [h2, if_false]
        exact ih

theorem mem_keysOf_assocSet {α : Type} {m : List (String × α)} {k x : String}
    {v : α} (hx : x ∈ keysOf (assocSet m k v)) : x ∈ keysOf m ∨ x = k := by
  induction m with
  | nil => simpa [assocSet, keysOf] using hx
  | cons kv rest ih =>
    obtain ⟨k0, v0⟩ := kv
    rw [assocSet] at hx
    by_cases h : k0 = k
    · simp only [h, if_true, keysOf, List.map_cons] at hx
      rcases List.mem_cons.mp hx with rfl | hx'
      · right; rfl
      · left; rw [keysOf, List.map_cons, h]; exact List.mem_cons_of_mem _ hx'
    · simp only [h, if_false, keysOf, List.map_cons] at hx
      rcases List.mem_cons.mp hx with rfl | hx'
      · left; exact List.mem_cons_self _ _
      · rcases ih hx' with h2 | h2
        · left; exact List.mem_cons_of_mem _ h2
        · right; exact h2

theorem assocLookup_foldl_untouched {α β : Type} (g : String × α → β)
    (updates : List (String × α)) (base : List (String × β)) (k : String)
    (h : ∀ kv ∈ updates, kv.1 ≠ k) :
    assocLookup
        (updates.foldl (fun m kv => assocSet m kv.1 (g kv)) base) k =
      assocLookup base k := by
  induction updates generalizing base with
  | nil => rfl
  | cons kv rest ih =>
    rw [List.foldl_cons]
    rw [ih _ (fun x hx => h x (List.mem_cons_of_mem _ hx))]
    exact assocLookup_set_other base (g kv) (h kv (List.mem_cons_self _ _))

theorem mem_keysOf_groupSliceStep {acc : List (String × List Body)}
    {b : String × List String × Body} {x : String}
    (hx : x ∈ keysOf (groupSliceStep acc b)) : x ∈ keysOf acc ∨ x = b.1 := by
  obtain ⟨t, ls, body⟩ := b
  cases ls with
  | nil =>
    rw [groupSliceStep] at hx
    cases hl : assocLookup acc t with
    | some bs =>
      rw [hl] at hx
      exact mem_keysOf_assocSet hx
    | none =>
      rw [hl] at hx
      rw [keysOf, List.map_append] at hx
      rcases List.mem_append.mp hx with h3 | h3
      · exact Or.inl h3
      · simp only [List.map_cons, List.map_nil, List.mem_singleton] at h3
        exact Or.inr h3
  | cons l0 lrest =>
    rw [groupSliceStep] at hx
    exact Or.inl hx


theorem mem_keysOf_groupMap1Step {acc : List (String × List (String × Body))}
    {b : String × List String × Body} {x : String}
    (hx : x ∈ keysOf (groupMap1Step acc b)) : x ∈ keysOf acc ∨ x = b.1 := by
  obtain ⟨t, ls, body⟩ := b
  cases ls with
  | nil =>
    rw [groupMap1Step] at hx
    exact Or.inl hx
  | cons l0 lrest =>
    cases lrest with
    | nil =>
      rw [groupMap1Step] at hx
      cases hl : assocLookup acc t with
      | some m =>
        rw [hl] at hx
        exact mem_keysOf_assocSet hx
      | none =>
        rw [hl] at hx
        rw [keysOf, List.map_append] at hx
        rcases List.mem_append.mp hx with h3 | h3
        · exact Or.inl h3
        · simp only [List.map_cons, List.map_nil, List.mem_singleton] at h3
          exact Or.inr h3
    | cons l1 lrest2 =>
      rw [groupMap1Step] at hx
      exact Or.inl hx

theorem mem_keysOf_groupMap2Step
    {acc : List (String × List (String × List (String × Body)))}
    {b : String × List String × Body} {x : String}
    (hx : x ∈ keysOf (groupMap2Step acc b)) : x ∈ keysOf acc ∨ x = b.1 := by
  obtain ⟨t, ls, body⟩ := b
  cases ls with
  | nil =>
    rw [groupMap2Step] at hx
    exact Or.inl hx
  | cons l0 lrest =>
    cases lrest with
    | nil =>
      rw [groupMap2Step] at hx
      exact Or.inl hx
    | cons l1 lrest2 =>
      cases lrest2 with
      | nil =>
        rw [groupMap2Step] at hx
        exact mem_keysOf_assocSet hx
      | cons l2 lrest3 =>
        rw [groupMap2Step] at hx
        exact Or.inl hx

theorem mem_keysOf_foldl_step {γ : Type}
    (step : List (String × γ) → (String × List String × Body) → List (String × γ))
    (hstep : ∀ acc b x, x ∈ keysOf (step acc b) → x ∈ keysOf acc ∨ x = b.1)
    (blocks : List (String × List String × Body)) (x : String)
    (hx : x ∈ keysOf (blocks.foldl step [])) : ∃ bl ∈ blocks, bl.1 = x := by
  suffices h : ∀ (acc : List (String × γ)),
      x ∈ keysOf (blocks.foldl step acc) → x ∈ keysOf acc ∨ ∃ bl ∈ blocks, bl.1 = x by
    rcases h [] hx with h2 | h2
    · simp [keysOf] at h2
    · exact h2
  clear hx
  induction blocks with
  | nil => intro acc h; exact Or.inl h
  | cons b rest ih =>
    intro acc h
    rw [List.foldl_cons] at h
    rcases ih _ h with h2 | ⟨bl, hbl, rfl⟩
    · rcases hstep acc b x h2 with h3 | rfl
      · exact Or.inl h3
      · exact Or.inr ⟨b, List.mem_cons_self _ _, rfl⟩
    · exact Or.inr ⟨bl, List.mem_cons_of_mem _ hbl, rfl⟩

theorem mapExceptPairs_keys {α β : Type} {f : α → Except String β}
    {m : List (String × α)} {r : List (String × β)}
    (h : mapExceptPairs f m = .ok r) : keysOf r = keysOf m := by
  induction m generalizing r with
  | nil =>
    rw [mapExceptPairs] at h
    cases h
    rfl
  | cons kv rest ih =>
    obtain ⟨k, a⟩ := kv
    rw [mapExceptPairs] at h
    cases hf : f a with
    | error e => rw [hf] at h; cases h
    | ok b =>
      rw [hf] at h
      cases hr : mapExceptPairs f rest with
      | error e => rw [hr] at h; cases h
      | ok bs =>
        rw [hr] at h
        cases h
        rw [keysOf, List.map_cons, keysOf, List.map_cons]
        rw [show List.map Prod.fst bs = keysOf bs from rfl, ih hr]
        rfl

theorem assocLookup_decodeAttrs {attrs : List (String × Expr)} {k : String}
    {e : Expr} (hmem : (k, e) ∈ attrs) (hnodup : (attrs.map Prod.fst).Nodup) :
    assocLookup (decodeAttrs attrs) k = some (expressionToNative e) := by
  rw [decodeAttrs]
  suffices h : ∀ (base : List (String × HVal)),
      assocLookup
          (attrs.foldl (fun m kv => assocSet m kv.1 (expressionToNative kv.2)) base) k =
        some (expressionToNative e) from h []
  induction attrs with
  | nil => cases hmem
  | cons kv rest ih =>
    obtain ⟨k0, e0⟩ := kv
    intro base
    rw [List.foldl_cons]
    rcases List.mem_cons.mp hmem with heq | hmem'
    · injection heq with h1 h2
      subst h1
      subst h2
      rw [List.map_cons] at hnodup
      have hnotin : ∀ kv ∈ rest, kv.1 ≠ k := by
        intro kv hkv hcontra
        have hmm : kv.1 ∈ List.map Prod.fst rest := List.mem_map_of_mem Prod.fst hkv
        rw [hcontra] at hmm
        exact (List.nodup_cons.mp hnodup).1 hmm
      exact (assocLookup_foldl_untouched (fun kv => expressionToNative kv.2) rest
          (assocSet base k (expressionToNative e)) k hnotin).trans
        (assocLookup_set_same base k (expressionToNative e))
    · exact ih hmem' (by rw [List.map_cons] at hnodup; exact (List.nodup_cons.mp hnodup).2) _

theorem bindOk {α β : Type} {x : Except String α} {g : α → Except String β}
    {v : β} (h : x >>= g = .ok v) : ∃ a, x = .ok a ∧ g a = .ok v := by
  cases x with
  | error e => exact absurd h (by simp [Bind.bind, Except.bind])
  | ok a => exact ⟨a, rfl, by simpa [Bind.bind, Except.bind] using h⟩

theorem decodeBlockUpdates_keys
    {dec : Body → Except String (List (String × HVal))}
    {blocks : List (String × List String × Body)}
    {su mu m2u : List (String × HVal)}
    (h : decodeBlockUpdates dec blocks = .ok (su, mu, m2u)) :
    keysOf su = keysOf (groupSlice blocks) ∧
      keysOf mu = keysOf (groupMap1 blocks) ∧
      keysOf m2u = keysOf (groupMap2 blocks) := by
  rw [decodeBlockUpdates] at h
  obtain ⟨su', hsu, h⟩ := bindOk h
  obtain ⟨mu', hmu, h⟩ := bindOk h
  obtain ⟨m2u', hm2u, h⟩ := bindOk h
  simp only [Except.ok.injEq, Prod.mk.injEq] at h
  obtain ⟨rfl, rfl, rfl⟩ := h
  exact ⟨mapExceptPairs_keys hsu, mapExceptPairs_keys hmu, mapExceptPairs_keys hm2u⟩

/-- Claim **C6** counterexample: decoding the document `a = null()` into a
generic map yields a map in which the key `a` is present, bound to the Go
nil value — not absent, as the claim states (`decodeBody` stores every
attribute's value, nil included, and `unmarshalToMap` copies every entry
into the caller's map). -/
theorem nullAttribute_key_present_counterexample :
    decodeBody 1 (.mk [("a", Expr.nullCall)] []) = .ok [("a", HVal.null)] ∧
      (assocLookup [("a", HVal.null)] "a").isSome = true :=
  ⟨rfl, rfl⟩

/-- Claim **C6** (amended): a document attribute whose expression evaluates to
the null sentinel is present in a generic-map decode result with a Go nil
value (not absent); it is excluded from simple-field population when
decoding into a struct; and in neither path does the null value cause an
error (the generic decode's success is independent of its attributes, and
the struct path records the null without failing). -/
theorem nullAttribute_nil_binding (fuel : Nat) (attrs : List (String × Expr))
    (blocks : List (String × List String × Body)) (k : String)
    (hmem : (k, Expr.nullCall) ∈ attrs)
    (hnodup : (attrs.map Prod.fst).Nodup)
    (hblocks : ∀ bl ∈ blocks, bl.1 ≠ k) :
    (∀ obj, decodeBody fuel (.mk attrs blocks) = .ok obj →
        assocLookup obj k = some HVal.null) ∧
      isOkE (decodeBody fuel (.mk attrs blocks)) =
        isOkE (decodeBody fuel (.mk [] blocks)) ∧
      simpleFieldPopulated attrs k = false := by
  refine ⟨?_, ?_, ?_⟩
  · intro obj hobj
    cases fuel with
    | zero => rw [decodeBody] at hobj; cases hobj
    | succ fuel =>
      rw [decodeBody] at hobj
      simp only [Body.attrs, Body.blocks] at hobj
      cases hbad : findBadBlock blocks with
      | some t => rw [hbad] at hobj; cases hobj
      | none =>
        rw [hbad] at hobj
        cases hupd : decodeBlockUpdates (fun body => decodeBody fuel body) blocks with
        | error e => rw [hupd] at hobj; cases hobj
        | ok upd =>
          obtain ⟨su, mu, m2u⟩ := upd
          rw [hupd] at hobj
          injection hobj with hobj
          subst hobj
          obtain ⟨hk1, hk2, hk3⟩ := decodeBlockUpdates_keys hupd
          have hsu' : ∀ kv ∈ su, kv.1 ≠ k := by
            intro kv hkv
            have hmem2 : kv.1 ∈ keysOf (groupSlice blocks) := by
              rw [← hk1]
              exact List.mem_map_of_mem Prod.fst hkv
            rw [groupSlice] at hmem2
            obtain ⟨bl, hbl, hbleq⟩ := mem_keysOf_foldl_step groupSliceStep
              (fun a b x hx => mem_keysOf_groupSliceStep hx) blocks kv.1 hmem2
            exact hbleq ▸ hblocks bl hbl
          have hmu' : ∀ kv ∈ mu, kv.1 ≠ k := by
            intro kv hkv
            have hmem2 : kv.1 ∈ keysOf (groupMap1 blocks) := by
              rw [← hk2]
              exact List.mem_map_of_mem Prod.fst hkv
            rw [groupMap1] at hmem2
            obtain ⟨bl, hbl, hbleq⟩ := mem_keysOf_foldl_step groupMap1Step
              (fun a b x hx => mem_keysOf_groupMap1Step hx) blocks kv.1 hmem2
            exact hbleq ▸ hblocks bl hbl
          have hm2u' : ∀ kv ∈ m2u, kv.1 ≠ k := by
            intro kv hkv
            have hmem2 : kv.1 ∈ keysOf (groupMap2 blocks) := by
              rw [← hk3]
              exact List.mem_map_of_mem Prod.fst hkv
            rw [groupMap2] at hmem2
            obtain ⟨bl, hbl, hbleq⟩ := mem_keysOf_foldl_step groupMap2Step
              (fun a b x hx => mem_keysOf_groupMap2Step hx) blocks kv.1 hmem2
            exact hbleq ▸ hblocks bl hbl
          have e3 := assocLookup_foldl_untouched Prod.snd m2u
            (mu.foldl (fun m kv => assocSet m kv.1 kv.2)
              (su.foldl (fun m kv => assocSet m kv.1 kv.2) (decodeAttrs attrs)))
            k hm2u'
          have e2 := assocLookup_foldl_untouched Prod.snd mu
            (su.foldl (fun m kv => assocSet m kv.1 kv.2) (decodeAttrs attrs)) k hmu'
          have e1 := assocLookup_foldl_untouched Prod.snd su (decodeAttrs attrs) k hsu'
          have e0 := assocLookup_decodeAttrs hmem hnodup
          exact e3.trans (e2.trans (e1.trans e0))
  · cases fuel with
    | zero => rfl
    | succ fuel =>
      rw [decodeBody, decodeBody]
      simp only [Body.attrs, Body.blocks]
      cases hbad : findBadBlock blocks with
      | some t => rfl
      | none =>
        cases hupd : decodeBlockUpdates (fun body => decodeBody fuel body) blocks with
        | error e => rfl
        | ok upd =>
          obtain ⟨su, mu, m2u⟩ := upd
          rfl
  · rw [simpleFieldPopulated]
    have hk : k ∈ attrs.filterMap
        (fun kv => if exprEvaluatesNull kv.2 then some kv.1 else none) :=
      List.mem_filterMap.mpr ⟨(k, Expr.nullCall), hmem, rfl⟩
    simp [hk]

/-- Witness for **C6** at the document `a = null()  b = 1  c {}`. -/
theorem nullAttribute_nil_binding_witness :
    (("a", Expr.nullCall) ∈ [("a", Expr.nullCall), ("b", Expr.litInt 1)]) ∧
      ((∀ obj,
          decodeBody 3 (.mk [("a", Expr.nullCall), ("b", Expr.litInt 1)]
            [("c", [], .mk [] [])]) = .ok obj →
          assocLookup obj "a" = some HVal.null) ∧
        isOkE (decodeBody 3 (.mk [("a", Expr.nullCall), ("b", Expr.litInt 1)]
            [("c", [], .mk [] [])])) =
          isOkE (decodeBody 3 (.mk [] [("c", [], .mk [] [])])) ∧
        simpleFieldPopulated [("a", Expr.nullCall), ("b", Expr.litInt 1)] "a" = false) :=
  ⟨List.mem_cons_self _ _,
    nullAttribute_nil_binding 3 [("a", Expr.nullCall), ("b", Expr.litInt 1)]
      [("c", [], .mk [] [])] "a" (List.mem_cons_self _ _) (by decide)
      (by intro bl hbl
          simp only [List.mem_singleton] at hbl
          subst hbl
          decide)⟩

/-! ### Label population (dethcl/unmarshal_helpers.go `processLabels`)

A label-tagged struct field is modelled as the pair of its HCL tag and its
current string value in the target struct (`processLabels` reads and
writes the fields through reflection; the order is the struct's field
order). -/

/-- The `processLabels` of unmarshal_helpers.go.  First pass: a label field
whose tag appears among the label-carrying attribute expressions receives
that attribute's (string literal) value; with a `nil` expression map the
pass is skipped.  Second pass: positional labels from the parent are
filled in **only when the number of labels equals the number of label
fields**, and only into fields still holding the empty string. -/
def processLabels (labelFields : List (String × String))
    (labelExprs : Option (List (String × String))) (labels : List String) :
    List (String × String) :=
  let pass1 :=
    match labelExprs with
    | none => labelFields
    | some exprs =>
      labelFields.map (fun tv =>
        match assocLookup exprs tv.1 with
        | some l => (tv.1, l)
        | none => tv)
  if labels ≠ [] ∧ labelFields ≠ [] ∧ labels.length = labelFields.length then
    pass1.zipWith (fun tv l => (tv.1, if tv.2 = "" then l else tv.2)) labels
  else pass1

/-- Claim **C5** counterexample: a block carrying one positional label decoded
into a target with two label-tagged fields leaves **both** fields at their
zero value — the first field does not receive the label, because the
positional pass runs only when the label count equals the field count. -/
theorem processLabels_one_label_two_fields_counterexample :
    processLabels [("typ", ""), ("name", "")] none ["L"] =
        [("typ", ""), ("name", "")] ∧
      processLabels [("typ", ""), ("name", "")] none ["L"] ≠
        [("typ", "L"), ("name", "")] := by
  constructor
  · rfl
  · decide

/-- Claim **C5** (amended): positional labels fill label fields only when the
label count equals the label-field count; in that case each field still at
its zero value receives the positional label of its index and an
already-supplied label is never overwritten; when the counts differ (for
example one label and two label fields) no field receives a positional
label and every field keeps its current value. -/
theorem processLabels_positional_defaulting
    (labelFields : List (String × String)) (labels : List String) :
    (labels.length ≠ labelFields.length →
        processLabels labelFields none labels = labelFields) ∧
      (labels.length = labelFields.length →
        processLabels labelFields none labels =
          labelFields.zipWith
            (fun tv l => (tv.1, if tv.2 = "" then l else tv.2)) labels) := by
  constructor
  · intro hne
    rw [processLabels]
    have : ¬ (labels ≠ [] ∧ labelFields ≠ [] ∧
        labels.length = labelFields.length) := by
      intro h
      exact hne h.2.2
    rw [if_neg this]
  · intro heq
    rw [processLabels]
    by_cases hl : labels = []
    · subst hl
      have hf : labelFields = [] := by
        cases labelFields with
        | nil => rfl
        | cons x rest => cases heq
      subst hf
      rfl
    · by_cases hf : labelFields = []
      · subst hf
        cases labels with
        | nil => rfl
        | cons x rest => cases heq
      · rw [if_pos ⟨hl, hf, heq⟩]

/-- Witness for **C5**: two positional labels and two label fields, the
first already populated — the populated field is kept, the empty one is
filled (the repository's own `TestProcessLabels` scenario). -/
theorem processLabels_positional_defaulting_witness :
    (["resource", "example"].length =
        [("typ", "existing"), ("name", "")].length) ∧
      processLabels [("typ", "existing"), ("name", "")] none
          ["resource", "example"] =
        [("typ", "existing"), ("name", "")].zipWith
          (fun tv l => (tv.1, if tv.2 = "" then l else tv.2))
          ["resource", "example"] :=
  ⟨by decide,
    (processLabels_positional_defaulting [("typ", "existing"), ("name", "")]
      ["resource", "example"]).2 (by decide)⟩

/-! ### Prototype cloning (dethcl util.go and its zero-value variant)

The Type Registry maps class names to prototype instances; `PopulateBlocks`
clones the prototype and unmarshals the block bytes into the clone.  The
repository carries two variants of `clone`; both are modelled here,
specialised to the spec scenario's prototype type (`ToyName string`,
`Price float64`, the price value modelled as a rational). -/

structure toy where
  toyName : String
  price : ℚ
deriving DecidableEq

/-- The `clone`, zero-value variant (src/unnamed/part_005):
`reflect.New(reflect.TypeOf(old).Elem()).Interface()` creates a fresh
zero-value instance; no field of the prototype is copied. -/
def cloneZeroValue (old : toy) : toy := { toyName := "", price := 0 }

/-- The `clone`, shallow-copy variant (dethcl/util.go): `reflect.New` followed
by a field-by-field copy of every settable field of the prototype. -/
def cloneShallowCopy (old : toy) : toy :=
  { toyName := old.toyName, price := old.price }

/-- Population of a clone from one block's attributes: the simple-field
pass writes only the fields whose attribute exists in the block
(`processSimpleFields` copies a decoded value only for tags present in
`existingAttrs`); absent fields keep the clone's values. -/
def populateToy (start : toy) (toyName : Option String) (price : Option ℚ) :
    toy :=
  { toyName := toyName.getD start.toyName,
    price := price.getD start.price }

/-- One `PopulateBlocks` step for one document block:
`processMapStructField`/`processSingleStructField` clone the registry
prototype and decode the block's attributes into the clone. -/
def decodeBlockInto (clone : toy → toy) (proto : toy)
    (toyName : Option String) (price : Option ℚ) : toy :=
  populateToy (clone proto) toyName price

/-- Claim **C7** counterexample: under the shallow-copy `clone` of
dethcl/util.go, a registry prototype with a pre-set `Price` of 5 decoded
against a block that sets only `ToyName` yields a result whose `Price` is
the prototype's 5 — a pre-set prototype field value appears in a decoded
result whose block does not set that field, contradicting the claim's
`never`. -/
theorem clone_shallow_prototype_leak_counterexample :
    decodeBlockInto cloneShallowCopy { toyName := "preset", price := 5 }
        (some "x") none = { toyName := "x", price := 5 } ∧
      ({ toyName := "x", price := 5 } : toy).price ≠ 0 := by
  constructor
  · rfl
  · decide

/-- Claim **C7** (amended): under the zero-value `clone` variant
(src/unnamed/part_005) the claim holds — the instance decoded into is a
fresh zero-value instance, a field the block does not set stays at its
zero value, and the decode result does not depend on the prototype's field
values at all; under the shallow-copy variant of dethcl/util.go a pre-set
prototype field does appear in the result (see the counterexample). -/
theorem cloneZeroValue_no_prototype_leak (proto : toy) (tn : Option String)
    (p : Option ℚ) :
    ((tn = none → (decodeBlockInto cloneZeroValue proto tn p).toyName = "") ∧
        (p = none → (decodeBlockInto cloneZeroValue proto tn p).price = 0)) ∧
      decodeBlockInto cloneZeroValue proto tn p =
        decodeBlockInto cloneZeroValue { toyName := "", price := 0 } tn p := by
  refine ⟨⟨?_, ?_⟩, rfl⟩
  · intro h
    subst h
    rfl
  · intro h
    subst h
    rfl

/-- Witness for **C7** at the prototype with a pre-set price and a block
setting only the toy name. -/
theorem cloneZeroValue_no_prototype_leak_witness :
    ((none : Option ℚ) = none →
        (decodeBlockInto cloneZeroValue { toyName := "preset", price := 5 }
          (some "x") none).price = 0) ∧
      (decodeBlockInto cloneZeroValue { toyName := "preset", price := 5 }
          (some "x") none).price = 0 :=
  ⟨((cloneZeroValue_no_prototype_leak { toyName := "preset", price := 5 }
      (some "x") none).1).2,
    ((cloneZeroValue_no_prototype_leak { toyName := "preset", price := 5 }
      (some "x") none).1).2 rfl⟩

/-! ### PopulateBlocks against the Shape Specification (unmarshal blocks)

`processMapStructField` and `processSingleStructField` clone a prototype
from the Type Registry for the class the Shape Specification selects and
recursively unmarshal each matching document block into the clone.  The
decoded instance type, the clone function and the recursive unmarshal
(`tryUnmarshalWithCustom`) are parameters of the model; a block is its
label list plus its body. -/

/-- A Shape Specification node (`utils.Struct`) as consulted here: only
its class name decides registry lookup (its per-field sub-specification is
passed to the recursive unmarshal, abstracted by `inner`). -/
structure StructSpec where
  className : String
deriving DecidableEq

/-- The class selected for one block by `processMapStructField`: the spec
entry for the block's first label, defaulting to the map's first entry
(Go map iteration order; the association list's head here). -/
def selectedClass (mapFields : List (String × StructSpec))
    (lbls : List String) : String :=
  ((assocLookup mapFields (lbls.headD "")).getD
    ((mapFields.head?.map Prod.snd).getD ⟨""⟩)).className

/-- The block loop of `processMapStructField` (unmarshal blocks source):
for each block select the spec entry by its first label, look the class up
in the registry — a missing class is an error naming the field — reject
more than one label, clone and recursively unmarshal (an inner failure is
wrapped, also naming the field), and accumulate the map; the field itself
is assigned only after every block has succeeded. -/
def processMapStructFieldGo {α : Type} (cloneF : α → α)
    (inner : α → StructSpec → List String → Body → Except String α)
    (ref : List (String × α)) (name : String)
    (mapFields : List (String × StructSpec)) :
    List (List String × Body) → List (String × α) →
      Except String (List (String × α))
  | [], fMap => .ok fMap
  | (lbls, body) :: rest, fMap =>
    let keystring := lbls.headD ""
    let nextStruct := (assocLookup mapFields keystring).getD
      ((mapFields.head?.map Prod.snd).getD ⟨""⟩)
    match assocLookup ref nextStruct.className with
    | none =>
      .error ("field " ++ name ++ ": struct type \u0022" ++
        nextStruct.className ++ "\u0022 not found in ref map")
    | some trial =>
      if lbls.length > 1 then
        .error ("field " ++ name ++
          ": MapStruct supports maximum 1 label, got " ++ toString lbls.length)
      else
        match inner (cloneF trial) nextStruct lbls body with
        | .error e =>
          .error ("field " ++ name ++ "[" ++ keystring ++
            "]: unmarshal failed: " ++ e)
        | .ok v =>
          processMapStructFieldGo cloneF inner ref name mapFields rest
            (assocSet fMap keystring v)

/-- The `processMapStructField` of the unmarshal blocks source. -/
def processMapStructField {α : Type} (cloneF : α → α)
    (inner : α → StructSpec → List String → Body → Except String α)
    (ref : List (String × α)) (name : String)
    (mapFields : List (String × StructSpec))
    (blocks : List (List String × Body)) :
    Except String (List (String × α)) :=
  processMapStructFieldGo cloneF inner ref name mapFields blocks []

/-- The `processSingleStructField` of the unmarshal blocks source: registry
lookup of the single spec's class (missing class is an error naming the
field), clone, recursive unmarshal (failure wrapped with the field name),
then the decoded instance. -/
def processSingleStructField {α : Type} (cloneF : α → α)
    (inner : α → StructSpec → List String → Body → Except String α)
    (ref : List (String × α)) (name : String) (singleSpec : StructSpec)
    (block : List String × Body) : Except String α :=
  match assocLookup ref singleSpec.className with
  | none =>
    .error ("field " ++ name ++ ": struct type \u0022" ++
      singleSpec.className ++ "\u0022 not found in ref map")
  | some trial =>
    match inner (cloneF trial) singleSpec block.1 block.2 with
    | .error e => .error ("field " ++ name ++ ": unmarshal failed: " ++ e)
    | .ok v => .ok v

/-- The caller's field after `processBlockFields` handles its block list:
`f.Set` runs only after the whole loop has succeeded, so an error leaves
the field at its previous value — no value is materialised for the block. -/
def fieldAfterProcess {β : Type} (f0 : Option β) (r : Except String β) :
    Option β :=
  match r with
  | .ok m => some m
  | .error _ => f0

theorem processMapStructFieldGo_missing_class {α : Type} (cloneF : α → α)
    (inner : α → StructSpec → List String → Body → Except String α)
    (ref : List (String × α)) (name : String)
    (mapFields : List (String × StructSpec))
    (blocks : List (List String × Body)) (fMap : List (String × α))
    (hbad : ∃ bl ∈ blocks, assocLookup ref (selectedClass mapFields bl.1) = none) :
    ∃ e, processMapStructFieldGo cloneF inner ref name mapFields blocks fMap =
        .error e ∧ ∃ suffix, e = "field " ++ name ++ suffix := by
  induction blocks generalizing fMap with
  | nil =>
    obtain ⟨bl, hbl, _⟩ := hbad
    cases hbl
  | cons b rest ih =>
    obtain ⟨lbls, body⟩ := b
    rw [processMapStructFieldGo]
    cases hlook : assocLookup ref
        ((assocLookup mapFields (lbls.headD "")).getD
          ((mapFields.head?.map Prod.snd).getD ⟨""⟩)).className with
    | none =>
      refine ⟨_, rfl, ?_⟩
      exact ⟨": struct type \u0022" ++
        ((assocLookup mapFields (lbls.headD "")).getD
          ((mapFields.head?.map Prod.snd).getD ⟨""⟩)).className ++
        "\u0022 not found in ref map", by simp [String.append_assoc]⟩
    | some trial =>
      dsimp only
      by_cases hlen : lbls.length > 1
      · rw [if_pos hlen]
        refine ⟨_, rfl, ?_⟩
        exact ⟨": MapStruct supports maximum 1 label, got " ++
          toString lbls.length, by simp [String.append_assoc]⟩
      · rw [if_neg hlen]
        cases hinner : inner (cloneF trial)
            ((assocLookup mapFields (lbls.headD "")).getD
              ((mapFields.head?.map Prod.snd).getD ⟨""⟩)) lbls body with
        | error e =>
          refine ⟨_, rfl, ?_⟩
          exact ⟨"[" ++ lbls.headD "" ++ "]: unmarshal failed: " ++ e,
            by simp [String.append_assoc]⟩
        | ok v =>
          refine ih _ ?_
          obtain ⟨bl, hbl, hblbad⟩ := hbad
          rcases List.mem_cons.mp hbl with rfl | hbl'
          · rw [selectedClass] at hblbad
            rw [hblbad] at hlook
            cases hlook
          · exact ⟨bl, hbl', hblbad⟩

/-- Claim **C8**: for a block-like field with a Shape Specification entry whose
selected class name is absent from the Type Registry, the decode fails
with an error naming the field and the caller's field value is left
untouched (no value is materialised for the block) — for both the
one-label-map form and the single-struct form. -/
theorem shapeSpec_missing_class_fails {α : Type} (cloneF : α → α)
    (inner : α → StructSpec → List String → Body → Except String α)
    (ref : List (String × α)) (name : String)
    (mapFields : List (String × StructSpec))
    (blocks : List (List String × Body)) (singleSpec : StructSpec)
    (block : List String × Body) (f0 : Option (List (String × α)))
    (g0 : Option α)
    (hbad : ∃ bl ∈ blocks, assocLookup ref (selectedClass mapFields bl.1) = none)
    (hsingle : assocLookup ref singleSpec.className = none) :
    (∃ e, processMapStructField cloneF inner ref name mapFields blocks =
        .error e ∧ ∃ suffix, e = "field " ++ name ++ suffix) ∧
      fieldAfterProcess f0
          (processMapStructField cloneF inner ref name mapFields blocks) = f0 ∧
      (∃ e, processSingleStructField cloneF inner ref name singleSpec block =
          .error e ∧ ∃ suffix, e = "field " ++ name ++ suffix) ∧
      fieldAfterProcess g0
          (processSingleStructField cloneF inner ref name singleSpec block) = g0 := by
  obtain ⟨e, he, hsuf⟩ := processMapStructFieldGo_missing_class cloneF inner ref
    name mapFields blocks [] hbad
  have hm : processMapStructField cloneF inner ref name mapFields blocks =
      .error e := he
  have hs : processSingleStructField cloneF inner ref name singleSpec block =
      .error ("field " ++ name ++ ": struct type \u0022" ++
        singleSpec.className ++ "\u0022 not found in ref map") := by
    rw [processSingleStructField, hsingle]
  refine ⟨⟨e, hm, hsuf⟩, ?_, ?_, ?_⟩
  · rw [hm]
    rfl
  · refine ⟨_, hs, ?_⟩
    exact ⟨": struct type \u0022" ++ singleSpec.className ++
      "\u0022 not found in ref map", by simp [String.append_assoc]⟩
  · rw [hs]
    rfl

/-- Witness for **C8**: a `brand "abc1"` block whose spec selects class
`toy` while the registry only holds `other`. -/
theorem shapeSpec_missing_class_fails_witness :
    (∃ bl ∈ [((["abc1"], Body.mk [] []) : List String × Body)],
        assocLookup [("other", (0 : Nat))]
          (selectedClass [("abc1", ⟨"toy"⟩)] bl.1) = none) ∧
      (∃ e, processMapStructField (fun a => a) (fun a _ _ _ => .ok a)
          [("other", (0 : Nat))] "Brand" [("abc1", ⟨"toy"⟩)]
          [((["abc1"] : List String), Body.mk [] [])] =
          .error e ∧ ∃ suffix, e = "field " ++ "Brand" ++ suffix) :=
  ⟨⟨((["abc1"], Body.mk [] []) : List String × Body),
      List.mem_cons_self _ _, rfl⟩,
    (shapeSpec_missing_class_fails (fun a => a) (fun a _ _ _ => .ok a)
      [("other", (0 : Nat))] "Brand" [("abc1", ⟨"toy"⟩)]
      [((["abc1"] : List String), Body.mk [] [])] ⟨"toy"⟩
      (["abc1"], Body.mk [] []) none none
      ⟨((["abc1"], Body.mk [] []) : List String × Body),
        List.mem_cons_self _ _, rfl⟩ rfl).1⟩

/-! ### UnmarshalSpecTree and the scratch copy (unmarshal source, C2)

`UnmarshalSpecTree` prepares
`updatedValue := reflect.New(targetValue.Elem().Type()).Elem()` followed by
`updatedValue.Set(targetValue.Elem())`.  The caller's `current` is a
pointer, so `targetValue.Elem().Type()` is that pointer type and the `Set`
copies the pointer itself: `updatedValue.Elem()` is the caller's own
struct, and every `FieldByName(...).Set(...)` performed by the process
steps lands directly in the caller's object.  The final
`targetValue.Set(updatedValue)` stores the same pointer back.  The model
therefore threads the caller-visible struct value through the steps in
source order and returns it alongside the call's result; on an error
return the mutations already performed persist.  Specialised to a target
with a label-tagged field `Typ` and a Shape-Specification-covered single
block field `Brand`. -/

structure outer (α : Type) where
  typ : String
  brand : Option α
deriving DecidableEq

/-- The parsed scenario document: an optional attribute carrying the label
tag `typ`, and the document blocks of type `brand`. -/
structure OuterDoc where
  typAttr : Option String
  brandBlocks : List (List String × Body)

/-- The `UnmarshalSpecTree` on the scenario target, in source step order:
parse, expression evaluation, block registration and field classification
touch only call-local state; `processLabels` writes the label field
through the shared pointer; there are no simple or interface fields;
`processBlockFields` resolves `Brand` through the registry and assigns the
decoded clone on success; any error aborts the call, with the writes
already performed left in the caller's object. -/
def UnmarshalSpecTreeOuter {α : Type} (cloneF : α → α)
    (inner : α → StructSpec → List String → Body → Except String α)
    (ref : List (String × α)) (brandSpec : StructSpec) (doc : OuterDoc)
    (obj : outer α) : Except String Unit × outer α :=
  let obj1 :=
    match doc.typAttr with
    | some l => { obj with typ := l }
    | none => obj
  match doc.brandBlocks.head? with
  | none => (.ok (), obj1)
  | some block =>
    match processSingleStructField cloneF inner ref "Brand" brandSpec block with
    | .error e => (.error e, obj1)
    | .ok v => (.ok (), { obj1 with brand := some v })

/-- Claim **C2**: evaluating the decode at a failing input.  The document
carries the label attribute `typ = "abc"` and one `brand` block whose
class is absent from the registry: the call returns an error, yet the
caller's object — zero-valued before the call — now has `Typ = "abc"`.
The "scratch copy" copies only the caller's pointer, so the failed decode
does not leave the target unmodified. -/
theorem unmarshalSpecTree_mutates_target_on_error :
    UnmarshalSpecTreeOuter (fun a => a) (fun a _ _ _ => .ok a)
        [("other", (0 : Nat))] ⟨"brand"⟩
        ⟨some "abc", [(["l1"], Body.mk [] [])]⟩ ⟨"", none⟩ =
      (.error ("field Brand: struct type \u0022brand\u0022 not found in ref map"),
        ⟨"abc", none⟩) ∧
      (⟨"abc", none⟩ : outer Nat) ≠ (⟨"", none⟩ : outer Nat) := by
  constructor
  · rfl
  · decide

/-! ### Generic encoding to HCL text (dethcl/encoding.go, C1)

`Marshal` of a generic map produces document text directly.  The string
builders below are translated from encoding.go; Go map iteration order is
the association list's order here; `fuel` bounds the call depth (in Go the
recursion is call-stack-bound) and each theorem evaluates the encoder with
fuel exceeding the value's depth.  Floating-point values are outside the
modelled fragment; they do not occur in the inputs considered. -/

/-- The `markerNoBrackets` constant of the dethcl package
(`NMRBRCKTNDTRMND`), signalling attribute-style encoding of map entries
inside a slice element. -/
def markerNoBrackets : String := "NMRBRCKTNDTRMND"

/-- Indentation of `level` steps, two spaces each. -/
def hclIndent (n : Nat) : String := String.join (List.replicate n "  ")

/-- The map classification of encoding.go. -/
inductive MapStructureType where
  | notAMap
  | shallowMap
  | nestedMap
deriving DecidableEq

def HVal.isMapGo : HVal → Bool
  | .map _ => true
  | _ => false

/-- The `classifyMapStructure` of encoding.go: not a map, a shallow map (empty,
or holding some non-map value), or a nested map (non-empty, every value a
map). -/
def classifyMapStructure : HVal → MapStructureType × List (String × HVal)
  | .map m =>
    if m.length = 0 then (.shallowMap, m)
    else if m.all (fun kv => kv.2.isMapGo) then (.nestedMap, m)
    else (.shallowMap, m)
  | _ => (.notAMap, [])

/-- The `reflect.Value.IsZero` on a decoded generic value, as consulted by
`marshalLevel`: empty string, zero number, false, and the nil slice that
`decodeSlice` returns for an empty tuple are zero; maps from the decoder
are non-nil and never zero; a nil interface is an invalid `reflect.Value`,
so the zero test is skipped for it (`encoding` then returns nil bytes). -/
def HVal.isZeroGo : HVal → Bool
  | .str s => s = ""
  | .int n => n = 0
  | .int64 n => n = 0
  | .bool b => b = false
  | .list xs => xs.isEmpty
  | .map _ => false
  | .null => false

/-- The `matchlast` of encoding.go. -/
def matchlast (keyname name : String) : Bool :=
  (keyname.splitOn " ").getLastD "" = name

/-- Ascending insertion of a string into a sorted list. -/
def insertStr (x : String) : List String → List String
  | [] => [x]
  | y :: rest => if x ≤ y then x :: y :: rest else y :: insertStr x rest

/-- The `sort.Strings` (ascending). -/
def sortStrings : List String → List String
  | [] => []
  | x :: rest => insertStr x (sortStrings rest)

/-- The signatures of the mutually recursive encoder functions of
encoding.go, gathered so the recursion can be tied off by call depth. -/
structure Enc where
  marshalLevel : HVal → Bool → Nat → List String → Option String
  encoding : HVal → Bool → Nat → List String → Option String
  encodePrimitiveOrRecurse : HVal → Bool → Nat → String × Option String
  loopHash : List String → String → HVal → Bool → Nat → Nat → List String → List String
  loopHashNested : List String → String → List (String × HVal) → List String → Nat → Nat → List String
  encodeMap : List (String × HVal) → Bool → Nat → List String → Option String
  encodeMapEntries : List (String × HVal) → Bool → Nat → List String → List String → List String
  encodeSlice : List HVal → Nat → Option String

/-- The exhausted encoder: every function returns its leftover
accumulator or nil bytes. -/
def Enc.bot : Enc where
  marshalLevel := fun _ _ _ _ => none
  encoding := fun _ _ _ _ => none
  encodePrimitiveOrRecurse := fun _ _ _ => ("", none)
  loopHash := fun lines _ _ _ _ _ _ => lines
  loopHashNested := fun lines _ _ _ _ _ => lines
  encodeMap := fun _ _ _ _ => none
  encodeMapEntries := fun _ _ _ _ arr => arr
  encodeSlice := fun _ _ => none

/-- One call level of the encoder of encoding.go, every call into the
encoder taken one level down (`E`).

`marshalLevel` restricted to generic values: a zero value yields nil bytes
and no error; pointers and structs do not occur among generic decoded
values, so everything else flows into `encoding`.

`encoding`: nil yields nil bytes, a map goes to `encodeMap`, a slice to
`encodeSlice`, and a scalar prints through `encodePrimitiveOrRecurse`.

`encodePrimitiveOrRecurse`: scalars print inline (strings quoted,
booleans as words, integers in decimal); anything else recurses through
`marshalLevel` one level deeper, without a keyname, and comes back as
bytes (possibly nil).

`loopHash`: a nested map (all values maps) within the two-label limit
emits one labelled block per sorted key (`loopHashNested` being the key
loop, each key a quoted label appended to the header); any other map
emits an unlabelled block below the header; everything else becomes an
attribute line `header = value` — nil bytes from the recursion producing
a line with an empty right-hand side.

`encodeMap`: one line per entry (the association order standing in for
Go map iteration order) — `k = null()` for a nil value, attribute style
under the `markerNoBrackets` keyname, otherwise through `loopHash` — the
lines wrapped in level-proportional indentation, braces included above
level 0.

`encodeSlice`: every element marshalled one level deeper in attribute
style (`markerNoBrackets`), a nil result standing in as the literal `[]`,
and the results joined into a bracketed list. -/
def encStep (E : Enc) : Enc where
  marshalLevel := fun v equal level keyname =>
    if v.isZeroGo then none
    else E.encoding v equal level keyname
  encoding := fun v equal level keyname =>
    match v with
    | .null => none
    | .map m => E.encodeMap m equal level keyname
    | .list xs => E.encodeSlice xs level
    | _ => some (E.encodePrimitiveOrRecurse v equal level).1
  encodePrimitiveOrRecurse := fun v equal level =>
    match v with
    | .str s => ("\u0022" ++ s ++ "\u0022", none)
    | .bool b => ((if b then "true" else "false"), none)
    | .int n => (toString n, none)
    | .int64 n => (toString n, none)
    | _ => ("", E.marshalLevel v equal (level + 1) [])
  loopHash := fun lines header item equal depth level keyname =>
    let cls := classifyMapStructure item
    let mapType :=
      if depth ≥ 2 ∧ cls.1 = MapStructureType.nestedMap then
        MapStructureType.shallowMap
      else cls.1
    match mapType with
    | .nestedMap =>
      E.loopHashNested lines header cls.2
        (sortStrings (cls.2.map Prod.fst)) depth level
    | .shallowMap =>
      let bs := E.marshalLevel item equal (level + 1) [header]
      lines ++ [header ++ " " ++ bs.getD ""]
    | .notAMap =>
      let pr := E.encodePrimitiveOrRecurse item equal level
      if pr.2.isSome ∧ keyname ≠ [] ∧ matchlast (keyname.headD "") (pr.2.getD "")
      then lines
      else if pr.1 ≠ "" then lines ++ [header ++ " = " ++ pr.1]
      else lines ++ [header ++ " = " ++ pr.2.getD ""]
  loopHashNested := fun lines header nextMap keys depth level =>
    match keys with
    | [] => lines
    | key :: rest =>
      let value := (assocLookup nextMap key).getD .null
      let lines2 := E.loopHash lines
        (header ++ " \u0022" ++ key ++ "\u0022") value false (depth + 1) level []
      E.loopHashNested lines2 header nextMap rest depth level
  encodeMap := fun m equal level keyname =>
    let arr := E.encodeMapEntries m equal level keyname []
    let leading := hclIndent (level + 1)
    let lessLeading := hclIndent level
    if level = 0 then
      some ("\n" ++ (leading ++ String.intercalate ("\n" ++ leading) arr) ++
        "\n" ++ lessLeading)
    else
      some ("\x7b\n" ++ (leading ++ String.intercalate ("\n" ++ leading) arr) ++
        "\n" ++ lessLeading ++ "\x7d")
  encodeMapEntries := fun m equal level keyname arr =>
    match m with
    | [] => arr
    | (k, v) :: rest =>
      let arr2 :=
        match v with
        | .null => arr ++ [k ++ " = null()"]
        | _ =>
          if keyname.headD "" = markerNoBrackets then
            let pr := E.encodePrimitiveOrRecurse v equal level
            if pr.1 ≠ "" then arr ++ [k ++ " = " ++ pr.1]
            else arr ++ [k ++ " = " ++ pr.2.getD ""]
          else E.loopHash arr k v equal 0 level keyname
      E.encodeMapEntries rest equal level keyname arr2
  encodeSlice := fun xs level =>
    let arr := xs.map
      (fun x => (E.marshalLevel x true (level + 1) [markerNoBrackets]).getD "[]")
    some ("[\n" ++ (hclIndent (level + 1) ++
      String.intercalate (",\n" ++ hclIndent (level + 1)) arr) ++
      "\n" ++ hclIndent level ++ "]")

/-- The encoder allowed `fuel` call levels; in Go the depth is bounded
only by the call stack, and each theorem evaluates with fuel exceeding
the value's depth. -/
def encAt : Nat → Enc
  | 0 => Enc.bot
  | f + 1 => encStep (encAt f)

/-- The `Marshal` of the marshal source for a generic value: nil encodes to
nil bytes, anything else through `MarshalLevel`/`marshalLevel` at level
0. -/
def MarshalS (fuel : Nat) (v : HVal) : Option String :=
  match v with
  | .null => none
  | _ => (encAt fuel).marshalLevel v false 0 []

/-- Claim **C1**: the code evaluated at the failing input `k = []`.  The first
`Unmarshal` into a generic map yields the binding of `k` to the nil empty
slice that `decodeSlice` returns for an empty tuple.  `Marshal` of that
map then treats the nil slice as a zero value — `marshalLevel` returns nil
bytes with no error — so `loopHash` emits the attribute line `k = ` with
an empty right-hand side, and the whole document is `"\n  k = \n"`.  That
text is not a valid HCL attribute (no expression follows `=`), so the
second `Unmarshal` fails with a syntax error instead of reproducing the
first result. -/
theorem roundtrip_empty_list_bug :
    decodeBody 2 (.mk [("k", Expr.tuple [])] []) = .ok [("k", HVal.list [])] ∧
      MarshalS 8 (HVal.map [("k", HVal.list [])]) = some "\n  k = \n" :=
  ⟨rfl, by decide⟩

end dethcl

namespace convert

/-- Byte strings exchanged with the external format libraries. -/
abbrev Bytes := List Nat

/-- The `UnmarshalFunc` of convert/convert.go: decodes bytes into a generic
object, or fails.  The concrete instances (`json.Unmarshal`,
`yaml.Unmarshal`, `dethcl.Unmarshal`) are external collaborators, so the
object type and the functions themselves are parameters of the model. -/
abbrev UnmarshalFunc (Obj : Type) := Bytes → Except String Obj

/-- The `MarshalFunc` of convert/convert.go: encodes an object into bytes, or
fails. -/
abbrev MarshalFunc (Obj : Type) := Obj → Except String Bytes

/-- The `convertFormat` of convert/convert.go: reject empty input, unmarshal,
then marshal.  A Go `(nil, err)` return is modelled as `Except.error`. -/
def convertFormat {Obj : Type} (raw : Bytes) (unmarshal : UnmarshalFunc Obj)
    (marshal : MarshalFunc Obj) : Except String Bytes :=
  if raw.length = 0 then .error "input is empty"
  else
    match unmarshal raw with
    | .error e => .error ("failed to unmarshal input: " ++ e)
    | .ok obj =>
      match marshal obj with
      | .error e => .error ("failed to marshal output: " ++ e)
      | .ok result => .ok result

/-- The `JSONToYAML` of convert/convert.go, with the external codec functions
as parameters. -/
def JSONToYAML {Obj : Type} (jsonUnmarshal : UnmarshalFunc Obj)
    (yamlMarshal : MarshalFunc Obj) (raw : Bytes) : Except String Bytes :=
  convertFormat raw jsonUnmarshal yamlMarshal

/-- The `YAMLToJSON` of convert/convert.go. -/
def YAMLToJSON {Obj : Type} (yamlUnmarshal : UnmarshalFunc Obj)
    (jsonMarshal : MarshalFunc Obj) (raw : Bytes) : Except String Bytes :=
  convertFormat raw yamlUnmarshal jsonMarshal

/-- The `JSONToHCL` of convert/convert.go. -/
def JSONToHCL {Obj : Type} (jsonUnmarshal : UnmarshalFunc Obj)
    (hclMarshal : MarshalFunc Obj) (raw : Bytes) : Except String Bytes :=
  convertFormat raw jsonUnmarshal hclMarshal

/-- The `HCLToJSON` of convert/convert.go (`hclUnmarshal` wraps
`dethcl.Unmarshal` without extra labels). -/
def HCLToJSON {Obj : Type} (hclUnmarshal : UnmarshalFunc Obj)
    (jsonMarshal : MarshalFunc Obj) (raw : Bytes) : Except String Bytes :=
  convertFormat raw hclUnmarshal jsonMarshal

/-- The `YAMLToHCL` of convert/convert.go. -/
def YAMLToHCL {Obj : Type} (yamlUnmarshal : UnmarshalFunc Obj)
    (hclMarshal : MarshalFunc Obj) (raw : Bytes) : Except String Bytes :=
  convertFormat raw yamlUnmarshal hclMarshal

/-- The `HCLToYAML` of convert/convert.go. -/
def HCLToYAML {Obj : Type} (hclUnmarshal : UnmarshalFunc Obj)
    (yamlMarshal : MarshalFunc Obj) (raw : Bytes) : Except String Bytes :=
  convertFormat raw hclUnmarshal yamlMarshal

theorem convertFormat_empty {Obj : Type} (u : UnmarshalFunc Obj)
    (m : MarshalFunc Obj) : convertFormat [] u m = .error "input is empty" := rfl

theorem convertFormat_ok_iff {Obj : Type} (raw : Bytes) (u : UnmarshalFunc Obj)
    (m : MarshalFunc Obj) (out : Bytes) :
    convertFormat raw u m = .ok out →
      raw.length ≠ 0 ∧ ∃ obj, u raw = .ok obj ∧ m obj = .ok out := by
  intro h
  rw [convertFormat] at h
  by_cases hraw : raw.length = 0
  · rw [if_pos hraw] at h
    cases h
  · rw [if_neg hraw] at h
    refine ⟨hraw, ?_⟩
    split at h
    next e heq => cases h
    next obj heq =>
      split at h
      next e2 heq2 => cases h
      next result heq2 =>
        cases h
        exact ⟨obj, heq, heq2⟩

/-- Claim **C10**: each of the six public format-conversion functions returns an
error (with nil output bytes, modelled by `Except.error`) on empty input,
and produces conversion output only when both the unmarshal step and the
marshal step succeed. -/
theorem conversion_empty_input_and_success {Obj : Type}
    (u : UnmarshalFunc Obj) (m : MarshalFunc Obj) :
    (JSONToYAML u m [] = .error "input is empty" ∧
      YAMLToJSON u m [] = .error "input is empty" ∧
      JSONToHCL u m [] = .error "input is empty" ∧
      HCLToJSON u m [] = .error "input is empty" ∧
      YAMLToHCL u m [] = .error "input is empty" ∧
      HCLToYAML u m [] = .error "input is empty") ∧
    ∀ raw out,
      (JSONToYAML u m raw = .ok out ∨ YAMLToJSON u m raw = .ok out ∨
        JSONToHCL u m raw = .ok out ∨ HCLToJSON u m raw = .ok out ∨
        YAMLToHCL u m raw = .ok out ∨ HCLToYAML u m raw = .ok out) →
      raw.length ≠ 0 ∧ ∃ obj, u raw = .ok obj ∧ m obj = .ok out := by
  refine ⟨⟨rfl, rfl, rfl, rfl, rfl, rfl⟩, ?_⟩
  intro raw out h
  rcases h with h | h | h | h | h | h <;>
    exact convertFormat_ok_iff raw u m out h

/-- Witness for **C10** at a concrete codec pair and inputs. -/
theorem conversion_empty_input_and_success_witness :
    (@JSONToYAML Nat (fun _ => .ok 0) (fun _ => .ok [1]) [7] = .ok [1] ∨
      @YAMLToJSON Nat (fun _ => .ok 0) (fun _ => .ok [1]) [7] = .ok [1] ∨
      @JSONToHCL Nat (fun _ => .ok 0) (fun _ => .ok [1]) [7] = .ok [1] ∨
      @HCLToJSON Nat (fun _ => .ok 0) (fun _ => .ok [1]) [7] = .ok [1] ∨
      @YAMLToHCL Nat (fun _ => .ok 0) (fun _ => .ok [1]) [7] = .ok [1] ∨
      @HCLToYAML Nat (fun _ => .ok 0) (fun _ => .ok [1]) [7] = .ok [1]) ∧
    ([7] : Bytes).length ≠ 0 ∧
      ∃ obj, (fun _ : Bytes => (Except.ok 0 : Except String Nat)) [7] = .ok obj ∧
        (fun _ : Nat => (Except.ok [1] : Except String Bytes)) obj = .ok [1] :=
  ⟨Or.inl rfl,
    (conversion_empty_input_and_success (fun _ => .ok 0) (fun _ => .ok [1])).2
      [7] [1] (Or.inl rfl)⟩

end convert

end Horizon
